import Mathlib

/-!
Verification of the Minesweeper AI knowledge engine (`src/minesweeper.py`).

The embedding below translates the `Sentence` class and the `MinesweeperAI`
class into Lean.  Cells are integer pairs (Python tuples), `Sentence.cells`
is a `Finset Cell` (a Python `set`), `Sentence.count` is an `Int` (Python's
unbounded `int`), and the engine's `knowledge` attribute is a `List Sentence`
(a Python `list`, whose order and duplicates matter).

Loops that are not structurally recursive are given explicit fuel:
* `msLoopFuel` is the `while changes` loop of `MinesweeperAI.mines_safes`;
  it is proved below to always reach its fixed point within
  `cellSum + 1` passes, and `mines_safes` runs it with exactly that fuel.
* `akLoop` is the `while len(self.moves_made) == len(self.safes)` loop of
  `MinesweeperAI.add_knowledge`; it is proved below to diverge on some
  reachable inputs, so it stays fuelled and `add_knowledge` returns
  `none` exactly when the Python loop runs longer than the given fuel.
-/

namespace Minesweeper

/-- A board cell: a `(row, column)` pair of integers, as in the Python tuples
that the source passes around (they are not restricted to the grid). -/
abbrev Cell := ℤ × ℤ

/-- `Sentence(cells, count)`: a set of board cells together with the number of
those cells that are mines.  `__eq__` compares both fields, which is exactly
the derived `DecidableEq`. -/
structure Sentence where
  cells : Finset Cell
  count : ℤ
deriving DecidableEq

namespace Sentence

/-- `Sentence.known_mines`: the whole cell set when `len(cells) == count`,
otherwise the empty set. -/
def known_mines (s : Sentence) : Finset Cell :=
  if (s.cells.card : ℤ) = s.count then s.cells else ∅

/-- `Sentence.known_safes`: the whole cell set when `count == 0`, otherwise
the empty set. -/
def known_safes (s : Sentence) : Finset Cell :=
  if s.count = 0 then s.cells else ∅

/-- `Sentence.mark_mine`: if the cell is a member, remove it and decrement
`count`; otherwise do nothing. -/
def mark_mine (s : Sentence) (c : Cell) : Sentence :=
  if c ∈ s.cells then ⟨s.cells.erase c, s.count - 1⟩ else s

/-- `Sentence.mark_safe`: if the cell is a member, remove it, leaving `count`
unchanged; otherwise do nothing. -/
def mark_safe (s : Sentence) (c : Cell) : Sentence :=
  if c ∈ s.cells then ⟨s.cells.erase c, s.count⟩ else s

end Sentence

/-- The `MinesweeperAI` instance state: grid size, the three cell sets and
the knowledge base (`self.knowledge`, an ordered list). -/
structure AI where
  height : ℕ
  width : ℕ
  moves_made : Finset Cell
  safes : Finset Cell
  mines : Finset Cell
  knowledge : List Sentence
deriving DecidableEq

namespace AI

/-- `MinesweeperAI.__init__(height, width)`. -/
def init (h w : ℕ) : AI := ⟨h, w, ∅, ∅, ∅, []⟩

/-- `MinesweeperAI.mark_mine`: add the cell to `self.mines` and run
`Sentence.mark_mine` on every held sentence. -/
def mark_mine (st : AI) (c : Cell) : AI :=
  { st with mines := insert c st.mines,
            knowledge := st.knowledge.map fun s => s.mark_mine c }

/-- `MinesweeperAI.mark_safe`: add the cell to `self.safes` and run
`Sentence.mark_safe` on every held sentence. -/
def mark_safe (st : AI) (c : Cell) : AI :=
  { st with safes := insert c st.safes,
            knowledge := st.knowledge.map fun s => s.mark_safe c }

/-- The cumulative effect of calling `MinesweeperAI.mark_mine` once for each
cell of the finite set `m` (in any order: the single-cell calls commute, see
`markMinesBatch_insert` and `markMinesBatch_singleton` below).  This is how
`mines_safes` consumes a sentence's `known_mines()` copy. -/
def markMinesBatch (st : AI) (m : Finset Cell) : AI :=
  { st with mines := st.mines ∪ m,
            knowledge := st.knowledge.map fun s =>
              ⟨s.cells \ m, s.count - ((s.cells ∩ m).card : ℤ)⟩ }

/-- The cumulative effect of calling `MinesweeperAI.mark_safe` once for each
cell of the finite set `m`, as `mines_safes` does with `known_safes()`. -/
def markSafesBatch (st : AI) (m : Finset Cell) : AI :=
  { st with safes := st.safes ∪ m,
            knowledge := st.knowledge.map fun s =>
              ⟨s.cells \ m, s.count⟩ }

/-- `MinesweeperAI.get_neighbours`: the 8-connected neighbours of `cell`
(the 3×3 block without the cell itself), clipped to the grid bounds. -/
def get_neighbours (st : AI) (cell : Cell) : Finset Cell :=
  (([(cell.1 - 1, cell.2 - 1), (cell.1 - 1, cell.2), (cell.1 - 1, cell.2 + 1),
     (cell.1, cell.2 - 1), (cell.1, cell.2), (cell.1, cell.2 + 1),
     (cell.1 + 1, cell.2 - 1), (cell.1 + 1, cell.2), (cell.1 + 1, cell.2 + 1)] : List Cell).filter
    fun p => p ≠ cell ∧ 0 ≤ p.1 ∧ p.1 < (st.height : ℤ) ∧ 0 ≤ p.2 ∧ p.2 < (st.width : ℤ)).toFinset

end AI

/-- One ordered pair `(a, b) = (knowledge[i], knowledge[j])`, `i < j`, of the
double loop in `MinesweeperAI.inferences`: if `a.cells ⊆ b.cells` the
candidate is `Sentence(b.cells - a.cells, b.count - a.count)`, else if
`b.cells ⊆ a.cells` it is `Sentence(a.cells - b.cells, a.count - b.count)`;
a candidate is kept only when it is not already in `knowledge` and its cell
set is non-empty. -/
def candidateOf (kn : List Sentence) (a b : Sentence) : Option Sentence :=
  if a.cells ⊆ b.cells then
    if (⟨b.cells \ a.cells, b.count - a.count⟩ : Sentence) ∉ kn ∧ b.cells \ a.cells ≠ ∅ then
      some ⟨b.cells \ a.cells, b.count - a.count⟩
    else none
  else if b.cells ⊆ a.cells then
    if (⟨a.cells \ b.cells, a.count - b.count⟩ : Sentence) ∉ kn ∧ a.cells \ b.cells ≠ ∅ then
      some ⟨a.cells \ b.cells, a.count - b.count⟩
    else none
  else none

/-- The double index loop of `MinesweeperAI.inferences`: element `i` paired
with every later element, in order. -/
def infAux (kn : List Sentence) : List Sentence → List Sentence
  | [] => []
  | a :: rest => rest.filterMap (candidateOf kn a) ++ infAux kn rest

/-- `MinesweeperAI.inferences`: all new sentences derivable from the current
knowledge by one full pass of pairwise subset resolution. -/
def inferences (st : AI) : List Sentence :=
  infAux st.knowledge st.knowledge

/-- `list.remove(s)` on Python lists: drop the first element equal to `s`
(equality being `Sentence.__eq__`). -/
def removeFirst : List Sentence → Sentence → List Sentence
  | [], _ => []
  | a :: t, s => if a = s then t else a :: removeFirst t s

/-- The body of the `for sentence in self.knowledge` traversal of one
`mines_safes` pass, starting at index `idx` with the `changes` flag `ch` and
the `empty_sentences` accumulator `em`.  The fuel `n` is the number of list
entries still to visit; marking never changes the length of `knowledge`, so
running with `n = st.knowledge.length` from `idx = 0` visits the whole list
exactly as the Python `for` does. -/
def msPassAux : ℕ → ℕ → AI → Bool → List Sentence → AI × Bool × List Sentence
  | 0, _, st, ch, em => (st, ch, em)
  | n + 1, idx, st, ch, em =>
    match st.knowledge[idx]? with
    | none => (st, ch, em)
    | some s =>
      if s.cells = ∅ then
        msPassAux n (idx + 1) st ch (em ++ [s])
      else
        msPassAux n (idx + 1)
          ((st.markMinesBatch s.known_mines).markSafesBatch s.known_safes)
          (ch || decide (s.known_mines ≠ ∅) || decide (s.known_safes ≠ ∅))
          em

/-- One pass of the `while changes` loop of `mines_safes`: traverse the
knowledge base marking everything resolved, then remove the sentences that
were seen empty.  Returns the new state and the `changes` flag. -/
def msPass (st : AI) : AI × Bool :=
  let r := msPassAux st.knowledge.length 0 st false []
  ({ r.1 with knowledge := r.2.2.foldl removeFirst r.1.knowledge }, r.2.1)

/-- The `while changes` loop of `mines_safes`, with explicit pass fuel. -/
def msLoopFuel : ℕ → AI → Option AI
  | 0, _ => none
  | n + 1, st =>
    let r := msPass st
    if r.2 then msLoopFuel n r.1 else some r.1

/-- Total number of cells held across the knowledge base; each changing
`mines_safes` pass strictly decreases it (`msPass_cellSum_lt` below). -/
def cellSum (st : AI) : ℕ :=
  (st.knowledge.map fun s => s.cells.card).sum

/-- `MinesweeperAI.mines_safes`.  `cellSum st + 1` passes always suffice
(theorem `msLoopFuel_isSome_of_lt` below), so this total function computes
the Python loop's actual fixed point. -/
def mines_safes (st : AI) : AI :=
  (msLoopFuel (cellSum st + 1) st).getD st

/-- The `while len(self.moves_made) == len(self.safes)` loop at the end of
`MinesweeperAI.add_knowledge`: run `inferences`, and while it produces new
sentences append them and re-run `mines_safes`.  `none` means the Python
loop runs for more than `fuel` iterations (it can in fact run forever, see
the C5 analysis below). -/
def akLoop : ℕ → AI → Option AI
  | 0, _ => none
  | n + 1, st =>
    if st.moves_made.card = st.safes.card then
      let nk := inferences st
      if nk = [] then some st
      else akLoop n (mines_safes { st with knowledge := st.knowledge ++ nk })
    else some st

/-- `MinesweeperAI.add_knowledge(cell, count)`: record the move, mark the
cell safe, build the new sentence over the unknown neighbours (decrementing
the count once per neighbour already known to be a mine), append it when
non-empty, run `mines_safes`, then the derivation loop. -/
def add_knowledge (fuel : ℕ) (st : AI) (cell : Cell) (count : ℤ) : Option AI :=
  let st1 := AI.mark_safe { st with moves_made := insert cell st.moves_made } cell
  let nbs := st1.get_neighbours cell
  let newCells := (nbs \ st1.mines) \ st1.safes
  let newCount := count - ((nbs ∩ st1.mines).card : ℤ)
  let st2 :=
    if newCells = ∅ then st1
    else { st1 with knowledge := st1.knowledge ++ [⟨newCells, newCount⟩] }
  akLoop fuel (mines_safes st2)

/-- The candidate list built by `MinesweeperAI.make_random_move`: the grid
cells, in row-major order, that are in neither `moves_made` nor `mines`. -/
def randomMoveCandidates (st : AI) : List Cell :=
  (((List.range st.height).map fun i =>
      (List.range st.width).map fun j => ((Int.ofNat i, Int.ofNat j) : Cell)).flatten).filter
    fun p => p ∉ st.moves_made ∧ p ∉ st.mines

/-- `MinesweeperAI.make_random_move` returns `random.choice` of the
candidate list when it is non-empty and `None` otherwise.  The uniformly
random selection is abstracted to the first candidate (`head?` is `none`
exactly when the candidate list is empty, which is all the `None`-behaviour
depends on). -/
def make_random_move (st : AI) : Option Cell :=
  (randomMoveCandidates st).head?

/-! ### Predicates used by the claims -/

/-- The spec §8 invariant: every held sentence has `0 <= count <= len(cells)`. -/
def kbCountInv (st : AI) : Prop :=
  ∀ s ∈ st.knowledge, 0 ≤ s.count ∧ s.count ≤ (s.cells.card : ℤ)

instance (st : AI) : Decidable (kbCountInv st) := by
  unfold kbCountInv; infer_instance

/-- Every held sentence mentions only cells that are in neither `safes` nor
`mines` (claim C10). -/
def cellsUnresolved (st : AI) : Prop :=
  ∀ s ∈ st.knowledge, ∀ c ∈ s.cells, c ∉ st.safes ∧ c ∉ st.mines

instance (st : AI) : Decidable (cellsUnresolved st) := by
  unfold cellsUnresolved; infer_instance

/-- The call `add_knowledge(cell, count)` from state `st` terminates: some
finite fuel is enough for its derive-then-propagate loop. -/
def akTerminates (st : AI) (cell : Cell) (count : ℤ) : Prop :=
  ∃ fuel, (add_knowledge fuel st cell count).isSome

/-! ### Concrete runs used by the claims

All of the following states arise from public calls on a fresh engine; the
theorems below certify each `add_knowledge` result. -/

/-- C1 counterexample run (3×3 grid): `mark_safe((2,2))` followed by
`add_knowledge((0,0), 1)` and `add_knowledge((0,1), 1)`. -/
def c1run : Option AI :=
  (add_knowledge 6 (AI.mark_safe (AI.init 3 3) (2, 2)) (0, 0) 1).bind fun s =>
    add_knowledge 6 s (0, 1) 1

/-- The engine state at the end of `c1run`. -/
def c1state : AI := c1run.getD (AI.init 3 3)

/-- C1/C2 witness state: a 1×2 grid after `add_knowledge((0,0), 1)`. -/
def c1w : AI := ⟨1, 2, {(0, 0)}, {(0, 0)}, {(0, 1)}, []⟩

/-- C2 counterexample run: `add_knowledge((9,9), -5)` on a 3×3 grid — the
cell is far outside the grid and the count is negative. -/
def c2cex : Option AI := add_knowledge 2 (AI.init 3 3) (9, 9) (-5)

/-- C2 witness run: `add_knowledge((5,5), -1)` on a 3×3 grid. -/
def c2w : Option AI := add_knowledge 2 (AI.init 3 3) (5, 5) (-1)

/-- C3 counterexample, step 1: `add_knowledge((0,0), 1)` on a 3×3 grid,
producing the sentence `{(0,1),(1,0),(1,1)} = 1`. -/
def c3mid : Option AI := add_knowledge 2 (AI.init 3 3) (0, 0) 1

/-- C3 counterexample, steps 2–3: public `mark_mine((0,1))` and
`mark_mine((1,0))` calls, driving the remaining sentence to count `-1`. -/
def c3state : AI :=
  ((c3mid.getD (AI.init 3 3)).mark_mine (0, 1)).mark_mine (1, 0)

/-- C4 counterexample: `mark_mine((0,0))` then `mark_safe((0,0))`. -/
def c4state : AI := AI.mark_safe (AI.mark_mine (AI.init 2 2) (0, 0)) (0, 0)

/-- C6 concrete knowledge base: `A = {a,b} = 1` and `B = {a,b,c} = 2` with
`a = (0,0)`, `b = (0,1)`, `c = (0,2)`. -/
def c6kn : List Sentence :=
  [⟨{(0, 0), (0, 1)}, 1⟩, ⟨{(0, 0), (0, 1), (0, 2)}, 2⟩]

/-- C7 counterexample run (1×5 grid): `add_knowledge((0,2), 1)`, then
`mark_safe((0,3))`, then `add_knowledge((0,0), 0)`.  The last call appends
`{(0,1)} = 0` while `{(0,1)} = 1` is also held, and propagation resolves
`(0,1)` as a mine, not as safe. -/
def c7run : Option AI :=
  ((add_knowledge 6 (AI.init 1 5) (0, 2) 1).map fun s => AI.mark_safe s (0, 3)).bind fun s =>
    add_knowledge 6 s (0, 0) 0

/-- The knowledge base held just before the final `mines_safes` call of the
last `add_knowledge` of `c7run` (moves/safes/mines fields irrelevant). -/
def c7pre : AI := ⟨1, 5, ∅, ∅, ∅, [⟨{(0, 1)}, 1⟩, ⟨{(0, 1)}, 0⟩]⟩

/-- C7 witness state: a knowledge base holding only `{(0,1)} = 0`. -/
def c7w : AI := ⟨1, 3, ∅, ∅, ∅, [⟨{(0, 1)}, 0⟩]⟩

/-- C9 concrete scenario: on a 2×2 grid, `mines` covers all cells except
`(0,0)`, which is in `moves_made`. -/
def c9state : AI := ⟨2, 2, {(0, 0)}, ∅, {(0, 1), (1, 0), (1, 1)}, []⟩

/-! ### The diverging derivation loop (claim C5)

On a 1×4 grid the three public calls `add_knowledge((0,0), 5)`,
`add_knowledge((0,2), 10)`, `add_knowledge((0,2), 13)` leave the engine —
inside the third call — with knowledge base
`[{(0,1)} = 5, {(0,1),(0,3)} = 10, {(0,3)} = 5, {(0,1),(0,3)} = 13]`,
`moves_made = safes = {(0,0),(0,2)}`, and the loop condition
`len(moves_made) == len(safes)` permanently true.  Every derivation pass
then produces exactly two new singleton sentences whose counts follow the
sequence `cseq`, so `inferences` never returns an empty list and the
`while` loop never exits.  The definitions below describe the knowledge
base after `k` passes of that loop. -/

/-- The cell `(0,1)` of the diverging run. -/
def cA : Cell := (0, 1)

/-- The cell `(0,3)` of the diverging run. -/
def cB : Cell := (0, 3)

/-- Singleton sentence `{(0,1)} = x`. -/
def sA (x : ℤ) : Sentence := ⟨{cA}, x⟩

/-- Singleton sentence `{(0,3)} = x`. -/
def sB (x : ℤ) : Sentence := ⟨{cB}, x⟩

/-- Two-cell sentence `{(0,1),(0,3)} = x`. -/
def bigS (x : ℤ) : Sentence := ⟨{cA, cB}, x⟩

/-- The singleton counts appearing in the diverging run: `cseq 0 = 5` is
present initially, and pass `m ≥ 1` of the loop adds the count `cseq m`
(`8, 2, 11, -1, 14, -4, …`).  An odd pass derives from the `count = 13`
sentence, an even pass from the `count = 10` one. -/
def cseq : ℕ → ℤ
  | 0 => 5
  | m + 1 => (if (m + 1) % 2 = 1 then 13 else 10) - cseq m

/-- The two sentences appended by pass `m ≥ 1` of the diverging loop, in
the order `inferences` produces them. -/
def newsAt (m : ℕ) : List Sentence :=
  if m % 2 = 1 then [sB (cseq m), sA (cseq m)] else [sA (cseq m), sB (cseq m)]

/-- All sentences appended during the first `k` passes. -/
def tailK : ℕ → List Sentence
  | 0 => []
  | k + 1 => tailK k ++ newsAt (k + 1)

/-- The knowledge base entering the diverging loop. -/
def baseK : List Sentence := [sA 5, bigS 10, sB 5, bigS 13]

/-- The knowledge base after `k` passes of the diverging loop. -/
def knowledgeK (k : ℕ) : List Sentence := baseK ++ tailK k

/-- The engine state after `k` passes of the diverging loop. -/
def stateK (k : ℕ) : AI :=
  ⟨1, 4, {(0, 2), (0, 0)}, {(0, 2), (0, 0)}, ∅, knowledgeK k⟩

/-- The engine state reached by the first two public calls of the C5 run. -/
def c5base : AI :=
  ⟨1, 4, {(0, 2), (0, 0)}, {(0, 2), (0, 0)}, ∅, [sA 5, bigS 10, sB 5]⟩

/-- The first two public calls of the C5 run. -/
def c5prep : Option AI :=
  (add_knowledge 4 (AI.init 1 4) (0, 0) 5).bind fun s => add_knowledge 4 s (0, 2) 10

/-! ### Basic lemmas about the embedding -/

theorem sentence_eta (s : Sentence) : (⟨s.cells, s.count⟩ : Sentence) = s := rfl

/-- Marking the empty batch is a no-op, like running zero iterations of the
`for mine in known_mines` loop. -/
theorem markMinesBatch_empty (st : AI) : st.markMinesBatch ∅ = st := by
  cases st with
  | mk h w mm sf mn kn =>
    simp [AI.markMinesBatch, sentence_eta]

theorem markSafesBatch_empty (st : AI) : st.markSafesBatch ∅ = st := by
  cases st with
  | mk h w mm sf mn kn =>
    simp [AI.markSafesBatch, sentence_eta]

/-- Batch-marking a single mine is exactly one `MinesweeperAI.mark_mine`. -/
theorem markMinesBatch_singleton (st : AI) (c : Cell) :
    st.markMinesBatch {c} = st.mark_mine c := by
  cases st with
  | mk h w mm sf mn kn =>
    simp only [AI.markMinesBatch, AI.mark_mine, AI.mk.injEq, true_and]
    refine ⟨by rw [Finset.insert_eq, Finset.union_comm], ?_⟩
    apply List.map_congr_left
    intro s _
    by_cases hc : c ∈ s.cells
    · simp [Sentence.mark_mine, hc, Finset.sdiff_singleton_eq_erase, Finset.inter_comm,
        Finset.singleton_inter_of_mem hc]
    · simp [Sentence.mark_mine, hc, Finset.sdiff_singleton_eq_erase,
        Finset.erase_eq_of_not_mem hc, Finset.inter_comm,
        Finset.singleton_inter_of_not_mem hc, sentence_eta]

/-- Batch-marking a single safe cell is exactly one `MinesweeperAI.mark_safe`. -/
theorem markSafesBatch_singleton (st : AI) (c : Cell) :
    st.markSafesBatch {c} = st.mark_safe c := by
  cases st with
  | mk h w mm sf mn kn =>
    simp only [AI.markSafesBatch, AI.mark_safe, AI.mk.injEq, true_and]
    refine ⟨by rw [Finset.insert_eq, Finset.union_comm], ?_⟩
    apply List.map_congr_left
    intro s _
    by_cases hc : c ∈ s.cells
    · simp [Sentence.mark_safe, hc, Finset.sdiff_singleton_eq_erase]
    · simp [Sentence.mark_safe, hc, Finset.sdiff_singleton_eq_erase,
        Finset.erase_eq_of_not_mem hc, sentence_eta]

/-- Peeling one cell off a mine batch: the batch is the iteration of
single-cell `mark_mine` calls, in any order. -/
theorem markMinesBatch_insert (st : AI) (c : Cell) (m : Finset Cell) (hc : c ∉ m) :
    st.markMinesBatch (insert c m) = (st.markMinesBatch m).mark_mine c := by
  cases st with
  | mk h w mm sf mn kn =>
    simp only [AI.markMinesBatch, AI.mark_mine, Finset.union_insert, AI.mk.injEq,
      true_and, List.map_map]
    apply List.map_congr_left
    intro s _
    by_cases hcs : c ∈ s.cells
    · have hmem : c ∈ s.cells \ m := Finset.mem_sdiff.mpr ⟨hcs, hc⟩
      have hins : s.cells ∩ insert c m = insert c (s.cells ∩ m) := by
        rw [Finset.inter_comm, Finset.insert_inter_of_mem hcs, Finset.inter_comm]
      have hcard : ((s.cells ∩ insert c m).card : ℤ) = (s.cells ∩ m).card + 1 := by
        rw [hins, Finset.card_insert_of_not_mem (by simp [hc])]
        push_cast
        ring
      simp only [Function.comp, Sentence.mark_mine, hmem, if_pos, Sentence.mk.injEq]
      constructor
      · rw [Finset.sdiff_insert]
      · rw [hcard]; ring
    · have hmem : c ∉ s.cells \ m := by simp [hcs]
      have hins : s.cells ∩ insert c m = s.cells ∩ m := by
        rw [Finset.inter_comm, Finset.insert_inter_of_not_mem hcs, Finset.inter_comm]
      simp only [Function.comp, Sentence.mark_mine, hmem, if_neg, not_false_iff,
        Sentence.mk.injEq, hins]
      constructor
      · rw [Finset.sdiff_insert, Finset.erase_eq_of_not_mem hmem]
      · trivial

/-- Peeling one cell off a safe batch. -/
theorem markSafesBatch_insert (st : AI) (c : Cell) (m : Finset Cell) (hc : c ∉ m) :
    st.markSafesBatch (insert c m) = (st.markSafesBatch m).mark_safe c := by
  cases st with
  | mk h w mm sf mn kn =>
    simp only [AI.markSafesBatch, AI.mark_safe, Finset.union_insert, AI.mk.injEq,
      true_and, List.map_map]
    apply List.map_congr_left
    intro s _
    by_cases hcs : c ∈ s.cells
    · have hmem : c ∈ s.cells \ m := Finset.mem_sdiff.mpr ⟨hcs, hc⟩
      simp only [Function.comp, Sentence.mark_safe, hmem, if_pos, Sentence.mk.injEq]
      exact ⟨by rw [Finset.sdiff_insert], trivial⟩
    · have hmem : c ∉ s.cells \ m := by simp [hcs]
      simp only [Function.comp, Sentence.mark_safe, hmem, if_neg, not_false_iff,
        Sentence.mk.injEq]
      exact ⟨by rw [Finset.sdiff_insert, Finset.erase_eq_of_not_mem hmem], trivial⟩

theorem Sentence.mark_mine_idem (s : Sentence) (c : Cell) :
    (s.mark_mine c).mark_mine c = s.mark_mine c := by
  unfold Sentence.mark_mine
  by_cases h : c ∈ s.cells
  · simp [h]
  · simp [h]

theorem Sentence.mark_safe_idem (s : Sentence) (c : Cell) :
    (s.mark_safe c).mark_safe c = s.mark_safe c := by
  unfold Sentence.mark_safe
  by_cases h : c ∈ s.cells
  · simp [h]
  · simp [h]

/-! ### Claim C8 -/

/-- C8: the engine's `mark_mine` and `mark_safe` are idempotent — calling
either twice with the same cell leaves the whole engine state (`moves_made`,
`safes`, `mines` and every held sentence) exactly as one call does. -/
theorem engine_mark_idempotent (st : AI) (c : Cell) :
    (st.mark_mine c).mark_mine c = st.mark_mine c ∧
      (st.mark_safe c).mark_safe c = st.mark_safe c := by
  cases st with
  | mk h w mm sf mn kn =>
    constructor
    · simp [AI.mark_mine, List.map_map, Function.comp, Sentence.mark_mine_idem]
    · simp [AI.mark_safe, List.map_map, Function.comp, Sentence.mark_safe_idem]

/-! ### Claim C4 -/

/-- C4 counterexample: after the public calls `mark_mine((0,0))` and
`mark_safe((0,0))` the cell `(0,0)` sits silently in both `mines` and
`safes` — the claimed disjointness invariant breaks and no fatal invariant
violation is raised. -/
theorem disjointness_counterexample :
    (0, 0) ∈ c4state.mines ∧ (0, 0) ∈ c4state.safes ∧
      c4state.safes ∩ c4state.mines ≠ ∅ := by
  decide

/-- C4 amended: `mark_mine` and `mark_safe` perform no disjointness check —
each unconditionally inserts the cell into its own set, so calling both for
the same cell always leaves that cell in both `mines` and `safes`, for every
engine state. -/
theorem mark_both_lands_in_both (st : AI) (c : Cell) :
    c ∈ ((st.mark_mine c).mark_safe c).mines ∧
      c ∈ ((st.mark_mine c).mark_safe c).safes := by
  constructor
  · simp [AI.mark_mine, AI.mark_safe]
  · simp [AI.mark_safe]

/-! ### Claim C2 -/

/-- C2 counterexample: `add_knowledge((9,9), -5)` on a 3×3 grid — a cell far
outside the grid with a negative mine count — is not rejected: the call
returns normally having recorded `(9,9)` as a move made and as safe. -/
theorem no_validation_counterexample :
    c2cex = some ⟨3, 3, {(9, 9)}, {(9, 9)}, ∅, []⟩ ∧
      (9, 9) ∈ (c2cex.getD (AI.init 3 3)).moves_made ∧
      (9, 9) ∈ (c2cex.getD (AI.init 3 3)).safes := by
  decide

/-! ### Claim C3 -/

/-- C3 counterexample: on a 3×3 grid, `add_knowledge((0,0), 1)` leaves the
sentence `{(0,1),(1,0),(1,1)} = 1`; the public calls `mark_mine((0,1))`
and `mark_mine((1,0))` then drive it to `{(1,1)} = -1`, violating
`0 <= count <= len(cells)`. -/
theorem count_invariant_counterexample :
    c3mid.isSome ∧ c3state.knowledge = [⟨{(1, 1)}, -1⟩] ∧ ¬ kbCountInv c3state := by
  decide

/-- C3 amended: the two mutations each preserve only one half of the claimed
bound — `Sentence.mark_mine` preserves `count ≤ len(cells)` and
`Sentence.mark_safe` preserves `0 ≤ count`; the complementary halves (and
hence the full invariant) can be violated, as the counterexample shows. -/
theorem sentence_mark_half_bounds (s : Sentence) (c : Cell) :
    (s.count ≤ (s.cells.card : ℤ) →
      (s.mark_mine c).count ≤ ((s.mark_mine c).cells.card : ℤ)) ∧
    (0 ≤ s.count → 0 ≤ (s.mark_safe c).count) := by
  constructor
  · intro hle
    unfold Sentence.mark_mine
    by_cases h : c ∈ s.cells
    · have h1 : 1 ≤ s.cells.card := Finset.card_pos.mpr ⟨c, h⟩
      simp only [h, if_pos, Finset.card_erase_of_mem h, Nat.cast_sub h1]
      omega
    · simp only [h, if_neg, not_false_iff]
      exact hle
  · intro h0
    unfold Sentence.mark_safe
    by_cases h : c ∈ s.cells
    · simpa [h] using h0
    · simpa [h] using h0

theorem sentence_mark_half_bounds_witness :
    ((⟨{(0, 0), (0, 1)}, 2⟩ : Sentence).count ≤
        ((⟨{(0, 0), (0, 1)}, 2⟩ : Sentence).cells.card : ℤ)) ∧
      ((⟨{(0, 0), (0, 1)}, 2⟩ : Sentence).mark_mine (0, 0)).count ≤
        (((⟨{(0, 0), (0, 1)}, 2⟩ : Sentence).mark_mine (0, 0)).cells.card : ℤ) ∧
      0 ≤ ((⟨{(0, 0), (0, 1)}, 2⟩ : Sentence).mark_safe (0, 0)).count :=
  ⟨by decide,
    (sentence_mark_half_bounds ⟨{(0, 0), (0, 1)}, 2⟩ (0, 0)).1 (by decide),
    (sentence_mark_half_bounds ⟨{(0, 0), (0, 1)}, 2⟩ (0, 0)).2 (by decide)⟩

/-! ### Claim C6 -/

/-- Every sentence accepted by a `candidateOf` pair passed the two filters:
it is not already in the knowledge base and has a non-empty cell set. -/
theorem candidateOf_eq_some (kn : List Sentence) (a b s : Sentence)
    (h : candidateOf kn a b = some s) :
    s ∉ kn ∧ s.cells ≠ ∅ := by
  unfold candidateOf at h
  split_ifs at h with h1 h2 h3 h4
  · cases h
    exact ⟨h2.1, h2.2⟩
  · cases h
    exact ⟨h4.1, h4.2⟩

/-- If `a` appears before `b` in the traversed list, their accepted candidate
is in the output of the `inferences` double loop. -/
theorem candidateOf_mem_infAux (kn l1 l2 l3 : List Sentence) (a b s : Sentence)
    (h : candidateOf kn a b = some s) :
    s ∈ infAux kn (l1 ++ a :: l2 ++ b :: l3) := by
  induction l1 with
  | nil =>
    simp only [List.nil_append, infAux]
    apply List.mem_append_left
    exact List.mem_filterMap.mpr ⟨b, by simp, h⟩
  | cons x t ih =>
    simp only [List.cons_append, infAux]
    exact List.mem_append_right _ ih

/-- Everything `inferences` returns is new and non-vacuous. -/
theorem infAux_sound (kn : List Sentence) :
    ∀ (l : List Sentence) (s : Sentence), s ∈ infAux kn l → s ∉ kn ∧ s.cells ≠ ∅ := by
  intro l
  induction l with
  | nil =>
    intro s hs
    simp [infAux] at hs
  | cons a rest ih =>
    intro s hs
    simp only [infAux] at hs
    rcases List.mem_append.mp hs with h | h
    · obtain ⟨b, _, hb⟩ := List.mem_filterMap.mp h
      exact candidateOf_eq_some kn a b s hb
    · exact ih s h

/-- C6: for distinct sentences `A` and `B` held in the knowledge base (in
either order) with `A.cells ⊆ B.cells`, the derivation pass produces the
candidate `Sentence(B.cells - A.cells, B.count - A.count)`, and the
candidate is in the pass's output exactly when its cell set is non-empty
and it is not already in the knowledge base. -/
theorem inferences_subset_resolution (kn l1 l2 l3 : List Sentence) (A B : Sentence)
    (horder : kn = l1 ++ A :: l2 ++ B :: l3 ∨ kn = l1 ++ B :: l2 ++ A :: l3)
    (hsub : A.cells ⊆ B.cells) :
    (⟨B.cells \ A.cells, B.count - A.count⟩ : Sentence) ∈ infAux kn kn ↔
      B.cells \ A.cells ≠ ∅ ∧
        (⟨B.cells \ A.cells, B.count - A.count⟩ : Sentence) ∉ kn := by
  constructor
  · intro hmem
    have h := infAux_sound kn kn _ hmem
    exact ⟨h.2, h.1⟩
  · rintro ⟨hne, hnotin⟩
    have hsome : candidateOf kn A B = some ⟨B.cells \ A.cells, B.count - A.count⟩ := by
      unfold candidateOf
      rw [if_pos hsub, if_pos ⟨hnotin, hne⟩]
    rcases horder with rfl | rfl
    · exact candidateOf_mem_infAux _ l1 l2 l3 A B _ hsome
    · by_cases hba : B.cells ⊆ A.cells
      · exact absurd (Finset.sdiff_eq_empty_iff_subset.mpr hba) hne
      · have hsome' : candidateOf (l1 ++ B :: l2 ++ A :: l3) B A =
            some ⟨B.cells \ A.cells, B.count - A.count⟩ := by
          unfold candidateOf
          rw [if_neg hba, if_pos hsub, if_pos ⟨hnotin, hne⟩]
        exact candidateOf_mem_infAux _ l1 l2 l3 B A _ hsome'

theorem inferences_subset_resolution_witness :
    ((⟨{(0, 0), (0, 1)}, 1⟩ : Sentence).cells ⊆
        (⟨{(0, 0), (0, 1), (0, 2)}, 2⟩ : Sentence).cells) ∧
      (⟨{(0, 2)}, 1⟩ : Sentence) ∈ infAux c6kn c6kn := by
  refine ⟨by decide, ?_⟩
  have h := (inferences_subset_resolution c6kn [] [] []
      ⟨{(0, 0), (0, 1)}, 1⟩ ⟨{(0, 0), (0, 1), (0, 2)}, 2⟩
      (Or.inl (by decide)) (by decide)).mpr ⟨by decide, by decide⟩
  have he : (⟨({(0, 0), (0, 1), (0, 2)} : Finset Cell) \ {(0, 0), (0, 1)},
      (2 : ℤ) - 1⟩ : Sentence) = ⟨{(0, 2)}, 1⟩ := by decide
  rwa [he] at h

/-! ### Claim C9 -/

/-- C9: `make_random_move` draws from exactly the candidate list of grid
cells outside `moves_made` and `mines` (the `random.choice` over that list
is uniform by construction), and it returns `None` exactly when every grid
cell is in `moves_made` or `mines`; in particular it returns `None` on the
2×2 board whose mines cover all cells except the one already played. -/
theorem make_random_move_spec :
    (∀ st : AI, ∀ c : Cell,
        c ∈ randomMoveCandidates st ↔
          ((∃ i : ℕ, i < st.height ∧ ∃ j : ℕ, j < st.width ∧ c = ((i : ℤ), (j : ℤ))) ∧
            c ∉ st.moves_made ∧ c ∉ st.mines)) ∧
    (∀ st : AI,
        (make_random_move st = none ↔
          ∀ i : ℕ, i < st.height → ∀ j : ℕ, j < st.width →
            ((i : ℤ), (j : ℤ)) ∈ st.moves_made ∨ ((i : ℤ), (j : ℤ)) ∈ st.mines)) ∧
    make_random_move c9state = none := by
  have hmem : ∀ st : AI, ∀ c : Cell,
      c ∈ randomMoveCandidates st ↔
        ((∃ i : ℕ, i < st.height ∧ ∃ j : ℕ, j < st.width ∧ c = ((i : ℤ), (j : ℤ))) ∧
          c ∉ st.moves_made ∧ c ∉ st.mines) := by
    intro st c
    rw [randomMoveCandidates, List.mem_filter, List.mem_flatten]
    constructor
    · rintro ⟨⟨l, hl, hcl⟩, hp⟩
      obtain ⟨i, hi, rfl⟩ := List.mem_map.mp hl
      obtain ⟨j, hj, rfl⟩ := List.mem_map.mp hcl
      simp only [decide_eq_true_eq] at hp
      exact ⟨⟨i, List.mem_range.mp hi, j, List.mem_range.mp hj, rfl⟩, hp⟩
    · rintro ⟨⟨i, hi, j, hj, rfl⟩, hp⟩
      refine ⟨⟨(List.range st.width).map fun j => ((Int.ofNat i, Int.ofNat j) : Cell), ?_, ?_⟩, ?_⟩
      · exact List.mem_map_of_mem _ (List.mem_range.mpr hi)
      · exact List.mem_map_of_mem _ (List.mem_range.mpr hj)
      · simp only [decide_eq_true_eq]
        exact hp
  refine ⟨hmem, fun st => ?_, by decide⟩
  rw [make_random_move, List.head?_eq_none_iff]
  constructor
  · intro hnil i hi j hj
    by_contra hc
    push_neg at hc
    have : ((i : ℤ), (j : ℤ)) ∈ randomMoveCandidates st :=
      (hmem st _).mpr ⟨⟨i, hi, j, hj, rfl⟩, hc.1, hc.2⟩
    rw [hnil] at this
    exact absurd this (List.not_mem_nil _)
  · intro hall
    by_contra hne
    obtain ⟨c, hc⟩ := List.exists_mem_of_ne_nil _ hne
    obtain ⟨⟨i, hi, j, hj, rfl⟩, hmm, hmn⟩ := (hmem st c).mp hc
    rcases hall i hi j hj with h | h
    · exact hmm h
    · exact hmn h

/-! ### Lemmas about `mines_safes` -/

/-- A non-empty `known_mines()` is the sentence's whole cell set. -/
theorem Sentence.known_mines_ne (s : Sentence) (h : s.known_mines ≠ ∅) :
    s.known_mines = s.cells := by
  unfold Sentence.known_mines at h ⊢
  split_ifs at h ⊢ with hc
  · rfl
  · exact absurd rfl h

/-- A non-empty `known_safes()` is the sentence's whole cell set. -/
theorem Sentence.known_safes_ne (s : Sentence) (h : s.known_safes ≠ ∅) :
    s.known_safes = s.cells := by
  unfold Sentence.known_safes at h ⊢
  split_ifs at h ⊢ with hc
  · rfl
  · exact absurd rfl h

/-- A mapped sum strictly drops when it drops at one position and never
grows anywhere. -/
theorem sum_map_lt_of_getElem {f g : Sentence → ℕ} (hle : ∀ t, f t ≤ g t) :
    ∀ (l : List Sentence) (idx : ℕ) (s : Sentence), l[idx]? = some s → f s < g s →
      (l.map f).sum < (l.map g).sum := by
  intro l
  induction l with
  | nil =>
    intro idx s h
    simp at h
  | cons a t ih =>
    intro idx s h hlt
    cases idx with
    | zero =>
      simp only [List.getElem?_cons_zero, Option.some.injEq] at h
      subst h
      simp only [List.map_cons, List.sum_cons]
      have hrest := List.sum_le_sum (l := t) (f := f) (g := g) fun i _ => hle i
      omega
    | succ n =>
      simp only [List.getElem?_cons_succ] at h
      have hstep := ih n s h hlt
      simp only [List.map_cons, List.sum_cons]
      have h2 := hle a
      omega

theorem cellSum_markMinesBatch_le (st : AI) (m : Finset Cell) :
    cellSum (st.markMinesBatch m) ≤ cellSum st := by
  unfold cellSum AI.markMinesBatch
  simp only [List.map_map]
  exact List.sum_le_sum fun s _ => Finset.card_le_card Finset.sdiff_subset

theorem cellSum_markSafesBatch_le (st : AI) (m : Finset Cell) :
    cellSum (st.markSafesBatch m) ≤ cellSum st := by
  unfold cellSum AI.markSafesBatch
  simp only [List.map_map]
  exact List.sum_le_sum fun s _ => Finset.card_le_card Finset.sdiff_subset

/-- Marking a resolved sentence wipes its whole cell set, so if the visited
sentence is non-empty and resolved, the total cell count strictly drops. -/
theorem cellSum_batch_lt (st : AI) (idx : ℕ) (s : Sentence)
    (hget : st.knowledge[idx]? = some s) (hne : s.cells ≠ ∅)
    (hflag : s.known_mines ≠ ∅ ∨ s.known_safes ≠ ∅) :
    cellSum ((st.markMinesBatch s.known_mines).markSafesBatch s.known_safes) <
      cellSum st := by
  unfold cellSum AI.markMinesBatch AI.markSafesBatch
  simp only [List.map_map]
  apply sum_map_lt_of_getElem
    (f := fun t => ((t.cells \ s.known_mines) \ s.known_safes).card)
    (fun t => Finset.card_le_card (Finset.Subset.trans Finset.sdiff_subset Finset.sdiff_subset))
    st.knowledge idx s hget
  have hwipe : (s.cells \ s.known_mines) \ s.known_safes = ∅ := by
    rcases hflag with h | h
    · rw [Sentence.known_mines_ne s h, Finset.sdiff_self, Finset.empty_sdiff]
    · rw [Sentence.known_safes_ne s h]
      exact Finset.sdiff_eq_empty_iff_subset.mpr Finset.sdiff_subset
  rw [hwipe, Finset.card_empty]
  exact Finset.card_pos.mpr (Finset.nonempty_iff_ne_empty.mpr hne)

/-- Traversal invariants of one `mines_safes` pass body: the grid, the move
set and the knowledge-base length are untouched, `safes` and `mines` only
grow, and the total cell count never grows. -/
theorem msPassAux_fields : ∀ (n idx : ℕ) (st : AI) (ch : Bool) (em : List Sentence),
    (msPassAux n idx st ch em).1.height = st.height ∧
    (msPassAux n idx st ch em).1.width = st.width ∧
    (msPassAux n idx st ch em).1.moves_made = st.moves_made ∧
    st.safes ⊆ (msPassAux n idx st ch em).1.safes ∧
    st.mines ⊆ (msPassAux n idx st ch em).1.mines ∧
    cellSum (msPassAux n idx st ch em).1 ≤ cellSum st := by
  intro n
  induction n with
  | zero =>
    intro idx st ch em
    exact ⟨rfl, rfl, rfl, Finset.Subset.refl _, Finset.Subset.refl _, le_refl _⟩
  | succ n ih =>
    intro idx st ch em
    rw [msPassAux]
    cases hg : st.knowledge[idx]? with
    | none =>
      exact ⟨rfl, rfl, rfl, Finset.Subset.refl _, Finset.Subset.refl _, le_refl _⟩
    | some s =>
      dsimp only
      by_cases he : s.cells = ∅
      · rw [if_pos he]
        exact ih (idx + 1) st ch (em ++ [s])
      · rw [if_neg he]
        have hb := ih (idx + 1)
          ((st.markMinesBatch s.known_mines).markSafesBatch s.known_safes)
          (ch || decide (s.known_mines ≠ ∅) || decide (s.known_safes ≠ ∅)) em
        refine ⟨hb.1, hb.2.1, hb.2.2.1, ?_, ?_, ?_⟩
        · exact Finset.Subset.trans Finset.subset_union_left hb.2.2.2.1
        · exact Finset.Subset.trans Finset.subset_union_left hb.2.2.2.2.1
        · exact le_trans hb.2.2.2.2.2
            (le_trans (cellSum_markSafesBatch_le _ _) (cellSum_markMinesBatch_le _ _))

/-- The `changes` flag is monotone: once raised it stays raised. -/
theorem msPassAux_ch_true : ∀ (n idx : ℕ) (st : AI) (em : List Sentence),
    (msPassAux n idx st true em).2.1 = true := by
  intro n
  induction n with
  | zero =>
    intro idx st em
    rfl
  | succ n ih =>
    intro idx st em
    rw [msPassAux]
    cases hg : st.knowledge[idx]? with
    | none => rfl
    | some s =>
      dsimp only
      by_cases he : s.cells = ∅
      · rw [if_pos he]
        exact ih (idx + 1) st (em ++ [s])
      · rw [if_neg he]
        have := ih (idx + 1)
          ((st.markMinesBatch s.known_mines).markSafesBatch s.known_safes) em
        simpa using this

/-- If a pass body raises the `changes` flag, the total cell count strictly
drops: some visited sentence was non-empty and resolved, and marking it
wiped its cells. -/
theorem msPassAux_progress : ∀ (n idx : ℕ) (st : AI) (em : List Sentence),
    (msPassAux n idx st false em).2.1 = true →
      cellSum (msPassAux n idx st false em).1 < cellSum st := by
  intro n
  induction n with
  | zero =>
    intro idx st em h
    exact absurd h (by simp [msPassAux])
  | succ n ih =>
    intro idx st em h
    rw [msPassAux] at h ⊢
    revert h
    cases hg : st.knowledge[idx]? with
    | none =>
      intro h
      simp at h
    | some s =>
      intro h
      dsimp only at h ⊢
      by_cases he : s.cells = ∅
      · rw [if_pos he] at h ⊢
        exact ih (idx + 1) st (em ++ [s]) h
      · rw [if_neg he] at h ⊢
        by_cases hm : s.known_mines = ∅
        · by_cases hs : s.known_safes = ∅
          · have hflag : (false || decide (s.known_mines ≠ ∅) ||
                decide (s.known_safes ≠ ∅)) = false := by
              simp [hm, hs]
            rw [hflag, hm, hs, markMinesBatch_empty, markSafesBatch_empty] at h ⊢
            exact ih (idx + 1) st em h
          · have hlt := cellSum_batch_lt st idx s hg he (Or.inr hs)
            have hle := (msPassAux_fields n (idx + 1)
              ((st.markMinesBatch s.known_mines).markSafesBatch s.known_safes)
              (false || decide (s.known_mines ≠ ∅) || decide (s.known_safes ≠ ∅))
              em).2.2.2.2.2
            exact lt_of_le_of_lt hle hlt
        · have hlt := cellSum_batch_lt st idx s hg he (Or.inl hm)
          have hle := (msPassAux_fields n (idx + 1)
            ((st.markMinesBatch s.known_mines).markSafesBatch s.known_safes)
            (false || decide (s.known_mines ≠ ∅) || decide (s.known_safes ≠ ∅))
            em).2.2.2.2.2
          exact lt_of_le_of_lt hle hlt

/-- A pass body that never raises `changes` leaves the state untouched and
collects exactly the (still untouched) empty sentences, in order. -/
theorem msPassAux_nochange : ∀ (n idx : ℕ) (st : AI) (em : List Sentence),
    st.knowledge.length ≤ idx + n →
    (msPassAux n idx st false em).2.1 = false →
    (msPassAux n idx st false em).1 = st ∧
      (msPassAux n idx st false em).2.2 =
        em ++ ((st.knowledge.drop idx).filter fun s => decide (s.cells = ∅)) := by
  intro n
  induction n with
  | zero =>
    intro idx st em hlen _
    have hdrop : st.knowledge.drop idx = [] := by
      apply List.drop_eq_nil_of_le
      omega
    simp [msPassAux, hdrop]
  | succ n ih =>
    intro idx st em hlen hch
    rw [msPassAux] at hch ⊢
    revert hch
    cases hg : st.knowledge[idx]? with
    | none =>
      intro hch
      have hdrop : st.knowledge.drop idx = [] := by
        apply List.drop_eq_nil_of_le
        exact List.getElem?_eq_none_iff.mp hg
      simp [hdrop]
    | some s =>
      intro hch
      dsimp only at hch ⊢
      have hidx : idx < st.knowledge.length := by
        rcases List.getElem?_eq_some.mp hg with ⟨hlt, _⟩
        exact hlt
      have hdrop : st.knowledge.drop idx = s :: st.knowledge.drop (idx + 1) := by
        rw [List.drop_eq_getElem_cons hidx]
        rcases List.getElem?_eq_some.mp hg with ⟨_, hv⟩
        rw [hv]
      by_cases he : s.cells = ∅
      · rw [if_pos he] at hch ⊢
        obtain ⟨h1, h2⟩ := ih (idx + 1) st (em ++ [s]) (by omega) hch
        refine ⟨h1, ?_⟩
        rw [h2, hdrop, List.filter_cons, if_pos (by simp [he]), List.append_assoc]
        rfl
      · rw [if_neg he] at hch ⊢
        cases hb : (false || decide (s.known_mines ≠ ∅) || decide (s.known_safes ≠ ∅)) with
        | true =>
          rw [hb] at hch
          rw [msPassAux_ch_true] at hch
          exact absurd hch (by simp)
        | false =>
          have hm : s.known_mines = ∅ := by
            have := of_decide_eq_false (by
              cases h1 : decide (s.known_mines ≠ ∅) <;> simp [h1] at hb ⊢)
            exact not_not.mp this
          have hs : s.known_safes = ∅ := by
            have := of_decide_eq_false (by
              cases h1 : decide (s.known_safes ≠ ∅) <;> simp [h1] at hb ⊢)
            exact not_not.mp this
          rw [hm, hs, markMinesBatch_empty, markSafesBatch_empty] at hch ⊢
          obtain ⟨h1, h2⟩ := ih (idx + 1) st em (by omega) hch
          refine ⟨h1, ?_⟩
          rw [h2, hdrop, List.filter_cons, if_neg (by simp [he])]

/-- `list.remove` keeps a sublist of the original list. -/
theorem removeFirst_sublist : ∀ (l : List Sentence) (s : Sentence),
    (removeFirst l s).Sublist l := by
  intro l
  induction l with
  | nil =>
    intro s
    simp [removeFirst]
  | cons a t ih =>
    intro s
    rw [removeFirst]
    by_cases h : a = s
    · rw [if_pos h]
      exact List.sublist_cons_self a t
    · rw [if_neg h]
      exact List.Sublist.cons₂ a (ih s)

theorem foldl_removeFirst_sublist : ∀ (em l : List Sentence),
    (em.foldl removeFirst l).Sublist l := by
  intro em
  induction em with
  | nil =>
    intro l
    exact List.Sublist.refl l
  | cons x em ih =>
    intro l
    rw [List.foldl_cons]
    exact (ih (removeFirst l x)).trans (removeFirst_sublist l x)

theorem cellSum_sublist_le (st : AI) (kn : List Sentence) (h : kn.Sublist st.knowledge) :
    cellSum { st with knowledge := kn } ≤ cellSum st := by
  unfold cellSum
  exact List.Sublist.sum_le_sum (h.map fun s => s.cells.card) fun a _ => Nat.zero_le a

/-- Removing values that are never equal to `a` keeps the head `a`. -/
theorem foldl_removeFirst_ne (a : Sentence) :
    ∀ (rem : List Sentence), (∀ s ∈ rem, s ≠ a) → ∀ (t : List Sentence),
      rem.foldl removeFirst (a :: t) = a :: rem.foldl removeFirst t := by
  intro rem
  induction rem with
  | nil =>
    intro _ t
    rfl
  | cons x rx ih =>
    intro hne t
    rw [List.foldl_cons, List.foldl_cons, removeFirst,
      if_neg fun hax => hne x (by simp) hax.symm]
    exact ih (fun s hs => hne s (by simp [hs])) (removeFirst t x)

/-- Removing, one occurrence at a time, the values of all elements
satisfying `p` removes exactly the elements satisfying `p` (the predicate
is a function of the value, so equal values agree on it). -/
theorem foldl_removeFirst_filter (p : Sentence → Bool) :
    ∀ (l : List Sentence), (l.filter p).foldl removeFirst l = l.filter fun s => !(p s) := by
  intro l
  induction l with
  | nil => rfl
  | cons a t ih =>
    by_cases hp : p a = true
    · rw [List.filter_cons, if_pos hp, List.foldl_cons, removeFirst, if_pos rfl, ih,
        List.filter_cons, if_neg (by simp [hp])]
    · rw [List.filter_cons, if_neg hp,
        foldl_removeFirst_ne a (t.filter p) (fun s hs hsa => by
          subst hsa
          exact hp (List.of_mem_filter hs)) t,
        ih, List.filter_cons, if_pos (by simp [hp])]

/-- If a full `mines_safes` pass reports changes, the total cell count
strictly drops. -/
theorem msPass_changes_lt (st : AI) (h : (msPass st).2 = true) :
    cellSum (msPass st).1 < cellSum st := by
  simp only [msPass] at h ⊢
  have h1 := msPassAux_progress st.knowledge.length 0 st [] h
  exact lt_of_le_of_lt (cellSum_sublist_le _ _ (foldl_removeFirst_sublist _ _)) h1

/-- Field invariants of a full pass. -/
theorem msPass_fields (st : AI) :
    (msPass st).1.height = st.height ∧ (msPass st).1.width = st.width ∧
    (msPass st).1.moves_made = st.moves_made ∧
    st.safes ⊆ (msPass st).1.safes ∧ st.mines ⊆ (msPass st).1.mines ∧
    cellSum (msPass st).1 ≤ cellSum st := by
  have hf := msPassAux_fields st.knowledge.length 0 st false []
  simp only [msPass]
  refine ⟨hf.1, hf.2.1, hf.2.2.1, hf.2.2.2.1, hf.2.2.2.2.1, ?_⟩
  exact le_trans (cellSum_sublist_le _ _ (foldl_removeFirst_sublist _ _)) hf.2.2.2.2.2

/-- A pass that reports no changes leaves everything except the knowledge
base untouched and just filters out the empty sentences. -/
theorem msPass_nochange (st : AI) (h : (msPass st).2 = false) :
    (msPass st).1 =
      { st with knowledge := st.knowledge.filter fun s => !decide (s.cells = ∅) } := by
  simp only [msPass] at h ⊢
  obtain ⟨h1, h2⟩ := msPassAux_nochange st.knowledge.length 0 st []
    (by omega) h
  rw [h1, h2, List.drop_zero, List.nil_append, foldl_removeFirst_filter]

/-- The spec's termination bound for `mines_safes`: each changing pass
strictly shrinks the total cell count, so `cellSum + 1` passes suffice. -/
theorem msLoopFuel_isSome_of_lt : ∀ (n : ℕ) (st : AI), cellSum st < n →
    (msLoopFuel n st).isSome := by
  intro n
  induction n with
  | zero =>
    intro st h
    omega
  | succ n ih =>
    intro st h
    simp only [msLoopFuel]
    by_cases hc : (msPass st).2 = true
    · rw [if_pos hc]
      have := msPass_changes_lt st hc
      exact ih (msPass st).1 (by omega)
    · rw [if_neg hc]
      rfl

/-- `mines_safes` computes the fixed point of the fuelled loop. -/
theorem mines_safes_eq (st : AI) :
    msLoopFuel (cellSum st + 1) st = some (mines_safes st) := by
  obtain ⟨x, hx⟩ := Option.isSome_iff_exists.mp
    (msLoopFuel_isSome_of_lt (cellSum st + 1) st (Nat.lt_succ_self _))
  rw [mines_safes, hx]
  rfl

/-- When the loop exits, its last pass reported no changes and had already
removed every empty sentence. -/
theorem msLoopFuel_knowledge_nonempty : ∀ (n : ℕ) (st st' : AI),
    msLoopFuel n st = some st' → ∀ s ∈ st'.knowledge, s.cells ≠ ∅ := by
  intro n
  induction n with
  | zero =>
    intro st st' h
    simp [msLoopFuel] at h
  | succ n ih =>
    intro st st' h
    simp only [msLoopFuel] at h
    by_cases hc : (msPass st).2 = true
    · rw [if_pos hc] at h
      exact ih _ _ h
    · rw [if_neg hc] at h
      cases h
      intro s hs
      rw [msPass_nochange st (by simpa using hc)] at hs
      simpa using List.of_mem_filter hs

/-- Loop-level field invariants. -/
theorem msLoopFuel_mono : ∀ (n : ℕ) (st st' : AI), msLoopFuel n st = some st' →
    st'.height = st.height ∧ st'.width = st.width ∧
    st'.moves_made = st.moves_made ∧ st.safes ⊆ st'.safes ∧ st.mines ⊆ st'.mines := by
  intro n
  induction n with
  | zero =>
    intro st st' h
    simp [msLoopFuel] at h
  | succ n ih =>
    intro st st' h
    simp only [msLoopFuel] at h
    have hp := msPass_fields st
    by_cases hc : (msPass st).2 = true
    · rw [if_pos hc] at h
      obtain ⟨e1, e2, e3, s1, s2⟩ := ih _ _ h
      exact ⟨e1.trans hp.1, e2.trans hp.2.1, e3.trans hp.2.2.1,
        Finset.Subset.trans hp.2.2.2.1 s1, Finset.Subset.trans hp.2.2.2.2.1 s2⟩
    · rw [if_neg hc] at h
      cases h
      exact ⟨hp.1, hp.2.1, hp.2.2.1, hp.2.2.2.1, hp.2.2.2.2.1⟩

theorem mines_safes_nonempty (st : AI) :
    ∀ s ∈ (mines_safes st).knowledge, s.cells ≠ ∅ :=
  msLoopFuel_knowledge_nonempty (cellSum st + 1) st (mines_safes st) (mines_safes_eq st)

theorem mines_safes_mono (st : AI) :
    (mines_safes st).height = st.height ∧ (mines_safes st).width = st.width ∧
    (mines_safes st).moves_made = st.moves_made ∧
    st.safes ⊆ (mines_safes st).safes ∧ st.mines ⊆ (mines_safes st).mines :=
  msLoopFuel_mono (cellSum st + 1) st (mines_safes st) (mines_safes_eq st)

/-! ### Claim C5, amended part -/

/-- C5 amended: the propagation/cleanup loop `mines_safes` always
terminates — `cellSum st + 1` passes (one per held cell, plus a final
no-change pass) always reach the fixed point, as the spec's monotone
shrinkage argument promises.  The enclosing derive-then-propagate loop of
`add_knowledge` does **not** share this guarantee (see the C5
counterexample). -/
theorem mines_safes_always_terminates (st : AI) :
    (msLoopFuel (cellSum st + 1) st).isSome :=
  msLoopFuel_isSome_of_lt (cellSum st + 1) st (Nat.lt_succ_self _)

/-! ### Lemmas about the derivation loop of `add_knowledge` -/

/-- The derivation loop exits either through the `break` (in which case
`inferences` of the final state is empty) or because the move/safe counts
differ in the final state. -/
theorem akLoop_exit : ∀ (n : ℕ) (st st' : AI), akLoop n st = some st' →
    st'.moves_made.card = st'.safes.card → inferences st' = [] := by
  intro n
  induction n with
  | zero =>
    intro st st' h
    simp [akLoop] at h
  | succ n ih =>
    intro st st' h hcard
    simp only [akLoop] at h
    by_cases hc : st.moves_made.card = st.safes.card
    · rw [if_pos hc] at h
      by_cases hn : inferences st = []
      · rw [if_pos hn] at h
        cases h
        exact hn
      · rw [if_neg hn] at h
        exact ih _ _ h hcard
    · rw [if_neg hc] at h
      cases h
      exact absurd hcard hc

/-- Field invariants of the derivation loop. -/
theorem akLoop_mono : ∀ (n : ℕ) (st st' : AI), akLoop n st = some st' →
    st'.height = st.height ∧ st'.width = st.width ∧
    st.moves_made ⊆ st'.moves_made ∧ st.safes ⊆ st'.safes ∧ st.mines ⊆ st'.mines := by
  intro n
  induction n with
  | zero =>
    intro st st' h
    simp [akLoop] at h
  | succ n ih =>
    intro st st' h
    simp only [akLoop] at h
    by_cases hc : st.moves_made.card = st.safes.card
    · rw [if_pos hc] at h
      by_cases hn : inferences st = []
      · rw [if_pos hn] at h
        cases h
        exact ⟨rfl, rfl, Finset.Subset.refl _, Finset.Subset.refl _, Finset.Subset.refl _⟩
      · rw [if_neg hn] at h
        obtain ⟨e1, e2, m1, m2, m3⟩ := ih _ _ h
        have hms := mines_safes_mono { st with knowledge := st.knowledge ++ inferences st }
        refine ⟨e1.trans hms.1, e2.trans hms.2.1, ?_, ?_, ?_⟩
        · intro a ha
          apply m1
          rw [hms.2.2.1]
          exact ha
        · exact fun a ha => m2 (hms.2.2.2.1 ha)
        · exact fun a ha => m3 (hms.2.2.2.2 ha)
    · rw [if_neg hc] at h
      cases h
      exact ⟨rfl, rfl, Finset.Subset.refl _, Finset.Subset.refl _, Finset.Subset.refl _⟩

/-! ### Claim C1 -/

/-- C1 counterexample: after `mark_safe((2,2))`, `add_knowledge((0,0), 1)`
and `add_knowledge((0,1), 1)` on a 3×3 grid, the last `add_knowledge`
returns with `len(moves_made) != len(safes)`, its derivation loop never
ran, and one further `inferences` pass still produces the brand-new
acceptable sentence `{(0,2),(1,2)} = 0` — the fixed point was not
reached. -/
theorem fixed_point_counterexample :
    c1run = some c1state ∧ inferences c1state = [⟨{(0, 2), (1, 2)}, 0⟩] ∧
      inferences c1state ≠ [] := by
  decide

/-- C1 amended: when `add_knowledge` returns **and** the final state still
satisfies the loop guard `len(moves_made) == len(safes)`, the derivation
step has indeed reached a fixed point: one further `inferences` pass
produces no acceptable sentence.  (When the guard fails the loop simply
stops early, see the counterexample.) -/
theorem add_knowledge_fixed_point (fuel : ℕ) (st : AI) (cell : Cell) (count : ℤ)
    (st' : AI) (h : add_knowledge fuel st cell count = some st')
    (hcard : st'.moves_made.card = st'.safes.card) :
    inferences st' = [] := by
  simp only [add_knowledge] at h
  exact akLoop_exit fuel _ st' h hcard

theorem add_knowledge_fixed_point_witness :
    add_knowledge 2 (AI.init 1 2) (0, 0) 1 = some c1w ∧
      c1w.moves_made.card = c1w.safes.card ∧ inferences c1w = [] :=
  ⟨by decide, by decide,
    add_knowledge_fixed_point 2 (AI.init 1 2) (0, 0) 1 c1w (by decide) (by decide)⟩

/-! ### Claim C2, amended part -/

/-- Monotonicity of the `mines_safes`-then-loop tail of `add_knowledge`. -/
theorem akLoop_ms_mono (fuel : ℕ) (S st' : AI)
    (h : akLoop fuel (mines_safes S) = some st') :
    S.moves_made ⊆ st'.moves_made ∧ S.safes ⊆ st'.safes := by
  obtain ⟨_, _, hm, hs, _⟩ := akLoop_mono fuel _ st' h
  have hmono := mines_safes_mono S
  constructor
  · intro a ha
    apply hm
    rw [hmono.2.2.1]
    exact ha
  · exact fun a ha => hs (hmono.2.2.2.1 ha)

/-- C2 amended: `add_knowledge` performs no validation at all — whenever it
returns, the ingested cell (however far outside the grid, and with whatever
count) has been recorded in `moves_made` and in `safes`; nothing is
rejected and no assertion fires. -/
theorem add_knowledge_no_validation (fuel : ℕ) (st : AI) (cell : Cell) (count : ℤ)
    (st' : AI) (h : add_knowledge fuel st cell count = some st') :
    cell ∈ st'.moves_made ∧ cell ∈ st'.safes := by
  simp only [add_knowledge] at h
  obtain ⟨hm, hs⟩ := akLoop_ms_mono fuel _ st' h
  constructor
  · apply hm
    split_ifs <;> simp [AI.mark_safe]
  · apply hs
    split_ifs <;> simp [AI.mark_safe]

theorem add_knowledge_no_validation_witness :
    c2w = some ⟨3, 3, {(5, 5)}, {(5, 5)}, ∅, []⟩ ∧
      (5, 5) ∈ (c2w.getD (AI.init 3 3)).moves_made ∧
      (5, 5) ∈ (c2w.getD (AI.init 3 3)).safes :=
  ⟨by decide,
    (add_knowledge_no_validation 2 (AI.init 3 3) (5, 5) (-1) _ (by decide)).1,
    (add_knowledge_no_validation 2 (AI.init 3 3) (5, 5) (-1) _ (by decide)).2⟩

/-! ### Claim C7 -/

/-- A sentence `{x} = 0` somewhere at or after the traversal position gets
`x` resolved (into `safes`, or into `mines` if another sentence claims `x`
first) by the end of the pass body. -/
theorem msPassAux_resolves (x : Cell) : ∀ (n idx : ℕ) (st : AI) (ch : Bool)
    (em : List Sentence),
    st.knowledge.length ≤ idx + n →
    ((∃ p, idx ≤ p ∧ st.knowledge[p]? = some ⟨{x}, 0⟩) ∨
      x ∈ st.safes ∨ x ∈ st.mines) →
    (x ∈ (msPassAux n idx st ch em).1.safes ∨
      x ∈ (msPassAux n idx st ch em).1.mines) := by
  intro n
  induction n with
  | zero =>
    intro idx st ch em hlen hhyp
    rcases hhyp with ⟨p, hp, hg⟩ | h | h
    · rcases List.getElem?_eq_some.mp hg with ⟨hlt, _⟩
      omega
    · exact Or.inl h
    · exact Or.inr h
  | succ n ih =>
    intro idx st ch em hlen hhyp
    rw [msPassAux]
    cases hg : st.knowledge[idx]? with
    | none =>
      rcases hhyp with ⟨p, hp, hgp⟩ | h | h
      · rcases List.getElem?_eq_some.mp hgp with ⟨hlt, _⟩
        have := List.getElem?_eq_none_iff.mp hg
        omega
      · exact Or.inl h
      · exact Or.inr h
    | some s =>
      dsimp only
      by_cases he : s.cells = ∅
      · rw [if_pos he]
        apply ih (idx + 1) st ch (em ++ [s]) (by omega)
        rcases hhyp with ⟨p, hp, hgp⟩ | h | h
        · left
          refine ⟨p, ?_, hgp⟩
          rcases Nat.eq_or_lt_of_le hp with rfl | hlt
          · rw [hg] at hgp
            cases hgp
            exact absurd he (by simp)
          · omega
        · exact Or.inr (Or.inl h)
        · exact Or.inr (Or.inr h)
      · rw [if_neg he]
        apply ih (idx + 1) _ _ em
        · have hlen2 : ((st.markMinesBatch s.known_mines).markSafesBatch
              s.known_safes).knowledge.length = st.knowledge.length := by
            simp [AI.markMinesBatch, AI.markSafesBatch]
          rw [hlen2]
          omega
        · rcases hhyp with ⟨p, hp, hgp⟩ | h | h
          · rcases Nat.eq_or_lt_of_le hp with rfl | hplt
            · -- the visited sentence is {x} = 0 itself: its known_safes is {x}
              rw [hg] at hgp
              cases hgp
              right
              left
              show x ∈ st.safes ∪ Sentence.known_safes ⟨{x}, 0⟩
              rw [Sentence.known_safes, if_pos rfl]
              simp
            · -- the sentence sits strictly later; either a mark touched x
              -- (then x is recorded) or it is still intact at position p
              by_cases hxm : x ∈ s.known_mines
              · right
                right
                show x ∈ st.mines ∪ s.known_mines
                simp [hxm]
              · by_cases hxs : x ∈ s.known_safes
                · right
                  left
                  show x ∈ st.safes ∪ s.known_safes
                  simp [hxs]
                · left
                  refine ⟨p, hplt, ?_⟩
                  show ((st.markMinesBatch s.known_mines).markSafesBatch
                    s.known_safes).knowledge[p]? = some ⟨{x}, 0⟩
                  simp only [AI.markMinesBatch, AI.markSafesBatch, List.map_map,
                    List.getElem?_map, hgp, Option.map_some]
                  have h1 : ({x} : Finset Cell) \ s.known_mines = {x} := by
                    rw [Finset.sdiff_eq_self_iff_disjoint, Finset.disjoint_singleton_left]
                    exact hxm
                  have h2 : ({x} : Finset Cell) ∩ s.known_mines = ∅ := by
                    rw [Finset.inter_comm, ← Finset.disjoint_iff_inter_eq_empty,
                      Finset.disjoint_singleton_right]
                    exact hxm
                  have h3 : ({x} : Finset Cell) \ s.known_safes = {x} := by
                    rw [Finset.sdiff_eq_self_iff_disjoint, Finset.disjoint_singleton_left]
                    exact hxs
                  simp [h1, h2, h3]
          · right
            left
            show x ∈ st.safes ∪ s.known_safes
            simp [h]
          · right
            right
            show x ∈ st.mines ∪ s.known_mines
            simp [h]

/-- Through the whole `mines_safes` loop: a held `{x} = 0` sentence always
gets `x` resolved one way or the other. -/
theorem msLoopFuel_resolves (x : Cell) : ∀ (n : ℕ) (st st' : AI),
    msLoopFuel n st = some st' →
    (⟨{x}, 0⟩ : Sentence) ∈ st.knowledge →
    x ∈ st'.safes ∨ x ∈ st'.mines := by
  intro n
  cases n with
  | zero =>
    intro st st' h
    simp [msLoopFuel] at h
  | succ n =>
    intro st st' h hmem
    simp only [msLoopFuel] at h
    have hres : x ∈ (msPass st).1.safes ∨ x ∈ (msPass st).1.mines := by
      obtain ⟨p, hp⟩ := List.getElem?_of_mem hmem
      have := msPassAux_resolves x st.knowledge.length 0 st false [] (by omega)
        (Or.inl ⟨p, Nat.zero_le p, hp⟩)
      simpa [msPass] using this
    by_cases hc : (msPass st).2 = true
    · rw [if_pos hc] at h
      obtain ⟨_, _, _, hs, hm⟩ := msLoopFuel_mono n _ _ h
      rcases hres with h1 | h1
      · exact Or.inl (hs h1)
      · exact Or.inr (hm h1)
    · rw [if_neg hc] at h
      cases h
      exact hres

/-- C7 counterexample: reachable through `add_knowledge((0,2), 1)`,
`mark_safe((0,3))`, `add_knowledge((0,0), 0)` on a 1×5 grid — the knowledge
base holds `{(0,1)} = 1` and the freshly appended `{(0,1)} = 0` when
`mines_safes` runs; the `{(0,1)} = 0` sentence is removed as claimed, but
`(0,1)` ends in `mines`, not in `safes`. -/
theorem cleanup_counterexample :
    (⟨{(0, 1)}, 0⟩ : Sentence) ∈ c7pre.knowledge ∧
      (0, 1) ∉ (mines_safes c7pre).safes ∧ (0, 1) ∈ (mines_safes c7pre).mines ∧
      (mines_safes c7pre).knowledge = [] ∧
      c7run.isSome ∧ (0, 1) ∉ (c7run.getD (AI.init 1 5)).safes ∧
      (0, 1) ∈ (c7run.getD (AI.init 1 5)).mines := by
  decide

/-- C7 amended: when `mines_safes` returns, no sentence with an empty cell
set remains in the knowledge base; and a sentence `{x} = 0` held when the
call starts always gets `x` resolved — `x` lands in `safes` unless a
conflicting sentence resolves `x` as a mine first, in which case it lands
in `mines` (the counterexample shows `known_safe` alone is not
guaranteed). -/
theorem mines_safes_cleanup (st : AI) :
    (∀ s ∈ (mines_safes st).knowledge, s.cells ≠ ∅) ∧
      (∀ x : Cell, (⟨{x}, 0⟩ : Sentence) ∈ st.knowledge →
        x ∈ (mines_safes st).safes ∨ x ∈ (mines_safes st).mines) :=
  ⟨mines_safes_nonempty st,
    fun x hx => msLoopFuel_resolves x (cellSum st + 1) st (mines_safes st)
      (mines_safes_eq st) hx⟩

theorem mines_safes_cleanup_witness :
    (⟨{(0, 1)}, 0⟩ : Sentence) ∈ c7w.knowledge ∧
      (∀ s ∈ (mines_safes c7w).knowledge, s.cells ≠ ∅) ∧
      ((0, 1) ∈ (mines_safes c7w).safes ∨ (0, 1) ∈ (mines_safes c7w).mines) :=
  ⟨by decide, (mines_safes_cleanup c7w).1,
    (mines_safes_cleanup c7w).2 (0, 1) (by decide)⟩

/-! ### Claim C10 -/

theorem unres_mark_mine (st : AI) (c : Cell) (h : cellsUnresolved st) :
    cellsUnresolved (st.mark_mine c) := by
  intro s' hs' d hd
  simp only [AI.mark_mine, List.mem_map] at hs'
  obtain ⟨s, hs, rfl⟩ := hs'
  have hdc : d ∈ s.cells ∧ d ≠ c := by
    unfold Sentence.mark_mine at hd
    split_ifs at hd with hc
    · exact ⟨Finset.mem_of_mem_erase hd, Finset.ne_of_mem_erase hd⟩
    · exact ⟨hd, fun hdc => hc (hdc ▸ hd)⟩
  obtain ⟨h1, h2⟩ := h s hs d hdc.1
  refine ⟨h1, ?_⟩
  show d ∉ insert c st.mines
  rw [Finset.mem_insert]
  push_neg
  exact ⟨hdc.2, h2⟩

theorem unres_mark_safe (st : AI) (c : Cell) (h : cellsUnresolved st) :
    cellsUnresolved (st.mark_safe c) := by
  intro s' hs' d hd
  simp only [AI.mark_safe, List.mem_map] at hs'
  obtain ⟨s, hs, rfl⟩ := hs'
  have hdc : d ∈ s.cells ∧ d ≠ c := by
    unfold Sentence.mark_safe at hd
    split_ifs at hd with hc
    · exact ⟨Finset.mem_of_mem_erase hd, Finset.ne_of_mem_erase hd⟩
    · exact ⟨hd, fun hdc => hc (hdc ▸ hd)⟩
  obtain ⟨h1, h2⟩ := h s hs d hdc.1
  refine ⟨?_, h2⟩
  show d ∉ insert c st.safes
  rw [Finset.mem_insert]
  push_neg
  exact ⟨hdc.2, h1⟩

theorem unres_batches (st : AI) (m1 m2 : Finset Cell) (h : cellsUnresolved st) :
    cellsUnresolved ((st.markMinesBatch m1).markSafesBatch m2) := by
  intro s' hs' d hd
  simp only [AI.markMinesBatch, AI.markSafesBatch, List.map_map, List.mem_map] at hs'
  obtain ⟨s, hs, rfl⟩ := hs'
  simp only [Function.comp] at hd
  rw [Finset.mem_sdiff] at hd
  obtain ⟨hd1, hdm2⟩ := hd
  rw [Finset.mem_sdiff] at hd1
  obtain ⟨hdc, hdm1⟩ := hd1
  obtain ⟨h1, h2⟩ := h s hs d hdc
  constructor
  · show d ∉ st.safes ∪ m2
    rw [Finset.mem_union]
    push_neg
    exact ⟨h1, hdm2⟩
  · show d ∉ st.mines ∪ m1
    rw [Finset.mem_union]
    push_neg
    exact ⟨h2, hdm1⟩

theorem unres_msPassAux : ∀ (n idx : ℕ) (st : AI) (ch : Bool) (em : List Sentence),
    cellsUnresolved st → cellsUnresolved (msPassAux n idx st ch em).1 := by
  intro n
  induction n with
  | zero =>
    intro idx st ch em h
    exact h
  | succ n ih =>
    intro idx st ch em h
    rw [msPassAux]
    cases hg : st.knowledge[idx]? with
    | none => exact h
    | some s =>
      dsimp only
      by_cases he : s.cells = ∅
      · rw [if_pos he]
        exact ih (idx + 1) st ch (em ++ [s]) h
      · rw [if_neg he]
        exact ih (idx + 1) _ _ em (unres_batches st s.known_mines s.known_safes h)

theorem unres_restrict (st : AI) (kn : List Sentence) (h : cellsUnresolved st)
    (hsub : ∀ s ∈ kn, s ∈ st.knowledge) :
    cellsUnresolved { st with knowledge := kn } :=
  fun s hs => h s (hsub s hs)

theorem unres_msPass (st : AI) (h : cellsUnresolved st) :
    cellsUnresolved (msPass st).1 := by
  simp only [msPass]
  exact unres_restrict _ _ (unres_msPassAux st.knowledge.length 0 st false [] h)
    fun s hs => (foldl_removeFirst_sublist _ _).subset hs

theorem unres_msLoopFuel : ∀ (n : ℕ) (st st' : AI), msLoopFuel n st = some st' →
    cellsUnresolved st → cellsUnresolved st' := by
  intro n
  induction n with
  | zero =>
    intro st st' h
    simp [msLoopFuel] at h
  | succ n ih =>
    intro st st' h hun
    simp only [msLoopFuel] at h
    by_cases hc : (msPass st).2 = true
    · rw [if_pos hc] at h
      exact ih _ _ h (unres_msPass st hun)
    · rw [if_neg hc] at h
      cases h
      exact unres_msPass st hun

theorem unres_mines_safes (st : AI) (h : cellsUnresolved st) :
    cellsUnresolved (mines_safes st) :=
  unres_msLoopFuel (cellSum st + 1) st (mines_safes st) (mines_safes_eq st) h

/-- Every derived sentence's cells come from one of the paired sentences. -/
theorem infAux_cells_subset (kn : List Sentence) : ∀ (l : List Sentence) (s : Sentence),
    s ∈ infAux kn l → ∃ t, t ∈ l ∧ s.cells ⊆ t.cells := by
  intro l
  induction l with
  | nil =>
    intro s hs
    simp [infAux] at hs
  | cons a rest ih =>
    intro s hs
    simp only [infAux] at hs
    rcases List.mem_append.mp hs with h | h
    · obtain ⟨b, hb, hcb⟩ := List.mem_filterMap.mp h
      unfold candidateOf at hcb
      split_ifs at hcb with h1 h2 h3 h4
      · cases hcb
        exact ⟨b, List.mem_cons_of_mem a hb, Finset.sdiff_subset⟩
      · cases hcb
        exact ⟨a, List.mem_cons_self a rest, Finset.sdiff_subset⟩
    · obtain ⟨t, ht, hsub⟩ := ih s h
      exact ⟨t, List.mem_cons_of_mem a ht, hsub⟩

theorem unres_append_inferences (st : AI) (h : cellsUnresolved st) :
    cellsUnresolved { st with knowledge := st.knowledge ++ inferences st } := by
  intro s hs d hd
  rcases List.mem_append.mp hs with h1 | h1
  · exact h s h1 d hd
  · obtain ⟨t, ht, hsub⟩ := infAux_cells_subset st.knowledge st.knowledge s h1
    exact h t ht d (hsub hd)

theorem unres_akLoop : ∀ (n : ℕ) (st st' : AI), akLoop n st = some st' →
    cellsUnresolved st → cellsUnresolved st' := by
  intro n
  induction n with
  | zero =>
    intro st st' h
    simp [akLoop] at h
  | succ n ih =>
    intro st st' h hun
    simp only [akLoop] at h
    by_cases hc : st.moves_made.card = st.safes.card
    · rw [if_pos hc] at h
      by_cases hn : inferences st = []
      · rw [if_pos hn] at h
        cases h
        exact hun
      · rw [if_neg hn] at h
        exact ih _ _ h (unres_mines_safes _ (unres_append_inferences st hun))
    · rw [if_neg hc] at h
      cases h
      exact hun

/-- C10: if every held sentence mentions only cells in neither `safes` nor
`mines`, this stays true across every public operation: `mark_mine` and
`mark_safe` remove the newly known cell from every sentence while recording
it, ingestion filters known cells out of the fresh sentence, and derived
sentences inherit the property from the sentences they came from. -/
theorem knowledge_mentions_only_unknown (st : AI) (c cell : Cell) (count : ℤ)
    (fuel : ℕ) (h : cellsUnresolved st) :
    cellsUnresolved (st.mark_mine c) ∧ cellsUnresolved (st.mark_safe c) ∧
      ∀ st', add_knowledge fuel st cell count = some st' → cellsUnresolved st' := by
  refine ⟨unres_mark_mine st c h, unres_mark_safe st c h, ?_⟩
  intro st' hak
  simp only [add_knowledge] at hak
  apply unres_akLoop fuel _ st' hak
  apply unres_mines_safes
  have h1 : cellsUnresolved
      (AI.mark_safe { st with moves_made := insert cell st.moves_made } cell) :=
    unres_mark_safe _ cell h
  split_ifs with hc
  · exact h1
  · intro s hs d hd
    rcases List.mem_append.mp hs with h2 | h2
    · exact h1 s h2 d hd
    · simp only [List.mem_singleton] at h2
      subst h2
      rw [Finset.mem_sdiff] at hd
      obtain ⟨hd1, hd2⟩ := hd
      rw [Finset.mem_sdiff] at hd1
      exact ⟨hd2, hd1.2⟩

theorem knowledge_mentions_only_unknown_witness :
    cellsUnresolved (AI.init 3 3) ∧
      cellsUnresolved ((AI.init 3 3).mark_mine (0, 0)) ∧
      cellsUnresolved (c3mid.getD (AI.init 3 3)) :=
  ⟨by decide,
    (knowledge_mentions_only_unknown (AI.init 3 3) (0, 0) (0, 0) 1 2 (by decide)).1,
    (knowledge_mentions_only_unknown (AI.init 3 3) (0, 0) (0, 0) 1 2
      (by decide)).2.2 (c3mid.getD (AI.init 3 3)) (by decide)⟩

/-! ### Claim C5: the diverging derivation loop

The count sequence `cseq` and the knowledge bases `knowledgeK k` describe
the run exactly; the lemmas below prove that each pass of the loop inside
`add_knowledge((0,2), 13)` maps `stateK k` to `stateK (k+1)`, forever. -/

theorem cseq_succ (m : ℕ) :
    cseq (m + 1) = (if (m + 1) % 2 = 1 then 13 else 10) - cseq m := rfl

theorem cseq_mod3 : ∀ m : ℕ, cseq m % 3 = 2 := by
  intro m
  induction m with
  | zero => decide
  | succ m ih =>
    rw [cseq_succ]
    split_ifs <;> omega

theorem cseq_closed : ∀ t : ℕ, cseq (2 * t) = 5 - 3 * (t : ℤ) ∧
    cseq (2 * t + 1) = 8 + 3 * (t : ℤ) := by
  intro t
  induction t with
  | zero => exact ⟨by decide, by decide⟩
  | succ t ih =>
    have h1 : 2 * (t + 1) = (2 * t + 1) + 1 := by ring
    have he : cseq (2 * (t + 1)) = 5 - 3 * ((t + 1 : ℕ) : ℤ) := by
      rw [h1, cseq_succ, if_neg (by omega), ih.2]
      push_cast
      ring
    refine ⟨he, ?_⟩
    rw [cseq_succ, if_pos (by omega), he]
    push_cast
    ring

theorem cseq_inj (m n : ℕ) (h : cseq m = cseq n) : m = n := by
  have c1 := cseq_closed (m / 2)
  have c2 := cseq_closed (n / 2)
  have e1 : m = 2 * (m / 2) ∨ m = 2 * (m / 2) + 1 := by omega
  have e2 : n = 2 * (n / 2) ∨ n = 2 * (n / 2) + 1 := by omega
  rcases e1 with hm | hm <;> rcases e2 with hn | hn
  · rw [hm, c1.1, hn, c2.1] at h
    omega
  · rw [hm, c1.1, hn, c2.2] at h
    omega
  · rw [hm, c1.2, hn, c2.1] at h
    omega
  · rw [hm, c1.2, hn, c2.2] at h
    omega

theorem cseq_ten_odd (m : ℕ) (h : m % 2 = 1) : 10 - cseq m = cseq (m + 1) := by
  rw [cseq_succ, if_neg (by omega)]

theorem cseq_ten_even (j : ℕ) (h : (j + 1) % 2 = 0) : 10 - cseq (j + 1) = cseq j := by
  rw [cseq_succ, if_neg (by omega)]
  ring

theorem cseq_thirteen_odd (j : ℕ) (h : (j + 1) % 2 = 1) : 13 - cseq (j + 1) = cseq j := by
  rw [cseq_succ, if_pos h]
  ring

theorem cseq_thirteen_even (m : ℕ) (h : m % 2 = 0) : 13 - cseq m = cseq (m + 1) := by
  rw [cseq_succ, if_pos (by omega)]

theorem sA_inj (x y : ℤ) : sA x = sA y ↔ x = y := by
  unfold sA
  simp [Sentence.mk.injEq]

theorem sB_inj (x y : ℤ) : sB x = sB y ↔ x = y := by
  unfold sB
  simp [Sentence.mk.injEq]

theorem sA_ne_sB (x y : ℤ) : sA x ≠ sB y := by
  intro h
  have hc : ({cA} : Finset Cell) = {cB} := congrArg Sentence.cells h
  exact absurd hc (by decide)

theorem sB_ne_sA (x y : ℤ) : sB x ≠ sA y := by
  intro h
  have hc : ({cB} : Finset Cell) = {cA} := congrArg Sentence.cells h
  exact absurd hc (by decide)

theorem sA_ne_bigS (x y : ℤ) : sA x ≠ bigS y := by
  intro h
  have hc : ({cA} : Finset Cell) = {cA, cB} := congrArg Sentence.cells h
  exact absurd hc (by decide)

theorem sB_ne_bigS (x y : ℤ) : sB x ≠ bigS y := by
  intro h
  have hc : ({cB} : Finset Cell) = {cA, cB} := congrArg Sentence.cells h
  exact absurd hc (by decide)

theorem mem_tailK_iff (k : ℕ) : ∀ s : Sentence,
    s ∈ tailK k ↔ ∃ m, 1 ≤ m ∧ m ≤ k ∧ (s = sA (cseq m) ∨ s = sB (cseq m)) := by
  induction k with
  | zero =>
    intro s
    rw [tailK]
    simp only [List.not_mem_nil, false_iff]
    rintro ⟨m, h1, h2, _⟩
    omega
  | succ k ih =>
    intro s
    rw [tailK, List.mem_append, ih s]
    constructor
    · rintro (⟨m, h1, h2, h3⟩ | hn)
      · exact ⟨m, h1, by omega, h3⟩
      · refine ⟨k + 1, by omega, le_refl _, ?_⟩
        unfold newsAt at hn
        split_ifs at hn <;> simp only [List.mem_cons, List.not_mem_nil, or_false] at hn <;>
          tauto
    · rintro ⟨m, h1, h2, h3⟩
      by_cases hm : m ≤ k
      · exact Or.inl ⟨m, h1, hm, h3⟩
      · have : m = k + 1 := by omega
        subst this
        right
        unfold newsAt
        split_ifs <;> rcases h3 with rfl | rfl <;> simp

theorem tailK_sing (k : ℕ) : ∀ t ∈ tailK k, ∃ y, t = sA y ∨ t = sB y := by
  intro t ht
  obtain ⟨m, _, _, h⟩ := (mem_tailK_iff k t).mp ht
  exact ⟨cseq m, h⟩

theorem sA_mem_knowledgeK (k : ℕ) (x : ℤ) :
    sA x ∈ knowledgeK k ↔ ∃ m, m ≤ k ∧ cseq m = x := by
  unfold knowledgeK baseK
  rw [List.mem_append]
  simp only [List.mem_cons, List.not_mem_nil, or_false]
  rw [mem_tailK_iff k (sA x)]
  constructor
  · rintro ((h | h | h | h) | ⟨m, h1, h2, h | h⟩)
    · exact ⟨0, Nat.zero_le k, ((sA_inj x 5).mp h).symm⟩
    · exact absurd h (sA_ne_bigS x 10)
    · exact absurd h (sA_ne_sB x 5)
    · exact absurd h (sA_ne_bigS x 13)
    · exact ⟨m, h2, ((sA_inj x (cseq m)).mp h).symm⟩
    · exact absurd h (sA_ne_sB x (cseq m))
  · rintro ⟨m, hm, rfl⟩
    cases m with
    | zero => exact Or.inl (Or.inl rfl)
    | succ m => exact Or.inr ⟨m + 1, by omega, hm, Or.inl rfl⟩

theorem sB_mem_knowledgeK (k : ℕ) (x : ℤ) :
    sB x ∈ knowledgeK k ↔ ∃ m, m ≤ k ∧ cseq m = x := by
  unfold knowledgeK baseK
  rw [List.mem_append]
  simp only [List.mem_cons, List.not_mem_nil, or_false]
  rw [mem_tailK_iff k (sB x)]
  constructor
  · rintro ((h | h | h | h) | ⟨m, h1, h2, h | h⟩)
    · exact absurd h (sB_ne_sA x 5)
    · exact absurd h (sB_ne_bigS x 10)
    · exact ⟨0, Nat.zero_le k, ((sB_inj x 5).mp h).symm⟩
    · exact absurd h (sB_ne_bigS x 13)
    · exact absurd h (sB_ne_sA x (cseq m))
    · exact ⟨m, h2, ((sB_inj x (cseq m)).mp h).symm⟩
  · rintro ⟨m, hm, rfl⟩
    cases m with
    | zero => exact Or.inl (Or.inr (Or.inr (Or.inl rfl)))
    | succ m => exact Or.inr ⟨m + 1, by omega, hm, Or.inr rfl⟩

theorem knowledgeK_shape (k : ℕ) : ∀ s ∈ knowledgeK k,
    s = bigS 10 ∨ s = bigS 13 ∨ ∃ m, m ≤ k ∧ (s = sA (cseq m) ∨ s = sB (cseq m)) := by
  intro s hs
  unfold knowledgeK baseK at hs
  rw [List.mem_append] at hs
  rcases hs with hb | ht
  · simp only [List.mem_cons, List.not_mem_nil, or_false] at hb
    rcases hb with rfl | rfl | rfl | rfl
    · exact Or.inr (Or.inr ⟨0, Nat.zero_le k, Or.inl rfl⟩)
    · exact Or.inl rfl
    · exact Or.inr (Or.inr ⟨0, Nat.zero_le k, Or.inr rfl⟩)
    · exact Or.inr (Or.inl rfl)
  · obtain ⟨m, _, h2, h3⟩ := (mem_tailK_iff k s).mp ht
    exact Or.inr (Or.inr ⟨m, h2, h3⟩)

theorem candidateOf_same_cells (kn : List Sentence) (a b : Sentence)
    (h : a.cells = b.cells) : candidateOf kn a b = none := by
  unfold candidateOf
  rw [if_pos (h ▸ Finset.Subset.refl a.cells),
    if_neg fun hc => hc.2 (by rw [h, Finset.sdiff_self])]

theorem candidateOf_no_subset (kn : List Sentence) (a b : Sentence)
    (h1 : ¬ a.cells ⊆ b.cells) (h2 : ¬ b.cells ⊆ a.cells) :
    candidateOf kn a b = none := by
  unfold candidateOf
  rw [if_neg h1, if_neg h2]

/-- Any pair of the singleton sentences of the diverging run derives
nothing: equal cells give an empty difference, distinct singletons are not
subsets of one another. -/
theorem sA_cells (x : ℤ) : (sA x).cells = {cA} := rfl

theorem sB_cells (x : ℤ) : (sB x).cells = {cB} := rfl

theorem candidateOf_sing_sing (kn : List Sentence) (s t : Sentence)
    (hs : ∃ x, s = sA x ∨ s = sB x) (ht : ∃ y, t = sA y ∨ t = sB y) :
    candidateOf kn s t = none := by
  obtain ⟨x, hx | hx⟩ := hs <;> obtain ⟨y, hy | hy⟩ := ht <;> subst hx <;> subst hy
  · exact candidateOf_same_cells kn _ _ rfl
  · refine candidateOf_no_subset kn _ _ ?_ ?_
    · rw [sA_cells, sB_cells]
      decide
    · rw [sA_cells, sB_cells]
      decide
  · refine candidateOf_no_subset kn _ _ ?_ ?_
    · rw [sA_cells, sB_cells]
      decide
    · rw [sA_cells, sB_cells]
      decide
  · exact candidateOf_same_cells kn _ _ rfl

theorem candidateOf_bigS_bigS (kn : List Sentence) (x y : ℤ) :
    candidateOf kn (bigS x) (bigS y) = none :=
  candidateOf_same_cells kn _ _ rfl

theorem candidateOf_bigS_sA (kn : List Sentence) (x y : ℤ) :
    candidateOf kn (bigS x) (sA y) =
      if sB (x - y) ∈ kn then none else some (sB (x - y)) := by
  unfold candidateOf bigS sA sB
  dsimp only
  rw [if_neg (by decide), if_pos (by decide)]
  have hdiff : ({cA, cB} : Finset Cell) \ {cA} = {cB} := by decide
  rw [hdiff]
  by_cases hmem : (⟨{cB}, x - y⟩ : Sentence) ∈ kn
  · rw [if_neg fun hc => hc.1 hmem, if_pos hmem]
  · rw [if_pos ⟨hmem, by decide⟩, if_neg hmem]

theorem candidateOf_sA_bigS (kn : List Sentence) (x y : ℤ) :
    candidateOf kn (sA y) (bigS x) =
      if sB (x - y) ∈ kn then none else some (sB (x - y)) := by
  unfold candidateOf bigS sA sB
  dsimp only
  rw [if_pos (by decide)]
  have hdiff : ({cA, cB} : Finset Cell) \ {cA} = {cB} := by decide
  rw [hdiff]
  by_cases hmem : (⟨{cB}, x - y⟩ : Sentence) ∈ kn
  · rw [if_neg fun hc => hc.1 hmem, if_pos hmem]
  · rw [if_pos ⟨hmem, by decide⟩, if_neg hmem]

theorem candidateOf_bigS_sB (kn : List Sentence) (x y : ℤ) :
    candidateOf kn (bigS x) (sB y) =
      if sA (x - y) ∈ kn then none else some (sA (x - y)) := by
  unfold candidateOf bigS sA sB
  dsimp only
  rw [if_neg (by decide), if_pos (by decide)]
  have hdiff : ({cA, cB} : Finset Cell) \ {cB} = {cA} := by decide
  rw [hdiff]
  by_cases hmem : (⟨{cA}, x - y⟩ : Sentence) ∈ kn
  · rw [if_neg fun hc => hc.1 hmem, if_pos hmem]
  · rw [if_pos ⟨hmem, by decide⟩, if_neg hmem]

theorem candidateOf_sB_bigS (kn : List Sentence) (x y : ℤ) :
    candidateOf kn (sB y) (bigS x) =
      if sA (x - y) ∈ kn then none else some (sA (x - y)) := by
  unfold candidateOf bigS sA sB
  dsimp only
  rw [if_pos (by decide)]
  have hdiff : ({cA, cB} : Finset Cell) \ {cB} = {cA} := by decide
  rw [hdiff]
  by_cases hmem : (⟨{cA}, x - y⟩ : Sentence) ∈ kn
  · rw [if_neg fun hc => hc.1 hmem, if_pos hmem]
  · rw [if_pos ⟨hmem, by decide⟩, if_neg hmem]

/-- Over the singleton tail, the `count = 10` sentence derives something
new only at the frontier of a knowledge base with an odd pass count. -/
theorem filterMap_big10_tail (k : ℕ) (hk : 1 ≤ k) : ∀ j : ℕ, j ≤ k →
    List.filterMap (candidateOf (knowledgeK k) (bigS 10)) (tailK j) =
      if j = k ∧ k % 2 = 1 then [sA (cseq (k + 1)), sB (cseq (k + 1))] else [] := by
  intro j
  induction j with
  | zero =>
    intro _
    rw [tailK, List.filterMap_nil, if_neg]
    rintro ⟨hjk, _⟩
    omega
  | succ j ih =>
    intro hjk
    rw [tailK, List.filterMap_append, ih (by omega),
      if_neg (by rintro ⟨h, _⟩; omega), List.nil_append]
    by_cases hp : (j + 1) % 2 = 1
    · rw [newsAt, if_pos hp]
      have har : 10 - cseq (j + 1) = cseq (j + 2) := cseq_ten_odd (j + 1) hp
      by_cases hfront : j + 1 = k
      · have hnA : sA (cseq (j + 2)) ∉ knowledgeK k := by
          rw [sA_mem_knowledgeK]
          rintro ⟨m, hm, he⟩
          have := cseq_inj m (j + 2) he
          omega
        have hnB : sB (cseq (j + 2)) ∉ knowledgeK k := by
          rw [sB_mem_knowledgeK]
          rintro ⟨m, hm, he⟩
          have := cseq_inj m (j + 2) he
          omega
        rw [List.filterMap_cons_some (by rw [candidateOf_bigS_sB, har, if_neg hnA]),
          List.filterMap_cons_some (by rw [candidateOf_bigS_sA, har, if_neg hnB]),
          List.filterMap_nil, if_pos ⟨hfront, by omega⟩,
          show j + 2 = k + 1 by omega]
      · have hmA : sA (cseq (j + 2)) ∈ knowledgeK k :=
          (sA_mem_knowledgeK k _).mpr ⟨j + 2, by omega, rfl⟩
        have hmB : sB (cseq (j + 2)) ∈ knowledgeK k :=
          (sB_mem_knowledgeK k _).mpr ⟨j + 2, by omega, rfl⟩
        rw [List.filterMap_cons_none (by rw [candidateOf_bigS_sB, har, if_pos hmA]),
          List.filterMap_cons_none (by rw [candidateOf_bigS_sA, har, if_pos hmB]),
          List.filterMap_nil, if_neg (by rintro ⟨h, _⟩; exact hfront h)]
    · have hp0 : (j + 1) % 2 = 0 := by omega
      rw [newsAt, if_neg hp]
      have har : 10 - cseq (j + 1) = cseq j := cseq_ten_even j hp0
      have hmA : sA (cseq j) ∈ knowledgeK k :=
        (sA_mem_knowledgeK k _).mpr ⟨j, by omega, rfl⟩
      have hmB : sB (cseq j) ∈ knowledgeK k :=
        (sB_mem_knowledgeK k _).mpr ⟨j, by omega, rfl⟩
      have hcond : ¬(j + 1 = k ∧ k % 2 = 1) := by
        rintro ⟨h1, h2⟩
        omega
      rw [List.filterMap_cons_none (by rw [candidateOf_bigS_sA, har, if_pos hmB]),
        List.filterMap_cons_none (by rw [candidateOf_bigS_sB, har, if_pos hmA]),
        List.filterMap_nil, if_neg hcond]

/-- Over the singleton tail, the `count = 13` sentence derives something
new only at the frontier of a knowledge base with an even pass count. -/
theorem filterMap_big13_tail (k : ℕ) (hk : 1 ≤ k) : ∀ j : ℕ, j ≤ k →
    List.filterMap (candidateOf (knowledgeK k) (bigS 13)) (tailK j) =
      if j = k ∧ k % 2 = 0 then [sB (cseq (k + 1)), sA (cseq (k + 1))] else [] := by
  intro j
  induction j with
  | zero =>
    intro _
    rw [tailK, List.filterMap_nil, if_neg]
    rintro ⟨hjk, _⟩
    omega
  | succ j ih =>
    intro hjk
    rw [tailK, List.filterMap_append, ih (by omega),
      if_neg (by rintro ⟨h, _⟩; omega), List.nil_append]
    by_cases hp : (j + 1) % 2 = 1
    · rw [newsAt, if_pos hp]
      have har : 13 - cseq (j + 1) = cseq j := cseq_thirteen_odd j hp
      have hmA : sA (cseq j) ∈ knowledgeK k :=
        (sA_mem_knowledgeK k _).mpr ⟨j, by omega, rfl⟩
      have hmB : sB (cseq j) ∈ knowledgeK k :=
        (sB_mem_knowledgeK k _).mpr ⟨j, by omega, rfl⟩
      have hcond : ¬(j + 1 = k ∧ k % 2 = 0) := by
        rintro ⟨h1, h2⟩
        omega
      rw [List.filterMap_cons_none (by rw [candidateOf_bigS_sB, har, if_pos hmA]),
        List.filterMap_cons_none (by rw [candidateOf_bigS_sA, har, if_pos hmB]),
        List.filterMap_nil, if_neg hcond]
    · have hp0 : (j + 1) % 2 = 0 := by omega
      rw [newsAt, if_neg hp]
      have har : 13 - cseq (j + 1) = cseq (j + 2) := cseq_thirteen_even (j + 1) hp0
      by_cases hfront : j + 1 = k
      · have hnA : sA (cseq (j + 2)) ∉ knowledgeK k := by
          rw [sA_mem_knowledgeK]
          rintro ⟨m, hm, he⟩
          have := cseq_inj m (j + 2) he
          omega
        have hnB : sB (cseq (j + 2)) ∉ knowledgeK k := by
          rw [sB_mem_knowledgeK]
          rintro ⟨m, hm, he⟩
          have := cseq_inj m (j + 2) he
          omega
        rw [List.filterMap_cons_some (by rw [candidateOf_bigS_sA, har, if_neg hnB]),
          List.filterMap_cons_some (by rw [candidateOf_bigS_sB, har, if_neg hnA]),
          List.filterMap_nil, if_pos ⟨hfront, by omega⟩,
          show j + 2 = k + 1 by omega]
      · have hmA : sA (cseq (j + 2)) ∈ knowledgeK k :=
          (sA_mem_knowledgeK k _).mpr ⟨j + 2, by omega, rfl⟩
        have hmB : sB (cseq (j + 2)) ∈ knowledgeK k :=
          (sB_mem_knowledgeK k _).mpr ⟨j + 2, by omega, rfl⟩
        rw [List.filterMap_cons_none (by rw [candidateOf_bigS_sA, har, if_pos hmB]),
          List.filterMap_cons_none (by rw [candidateOf_bigS_sB, har, if_pos hmA]),
          List.filterMap_nil, if_neg (by rintro ⟨h, _⟩; exact hfront h)]

theorem infAux_sing (kn : List Sentence) : ∀ l : List Sentence,
    (∀ t ∈ l, ∃ y, t = sA y ∨ t = sB y) → infAux kn l = [] := by
  intro l
  induction l with
  | nil =>
    intro _
    rfl
  | cons a rest ih =>
    intro h
    rw [infAux, List.filterMap_eq_nil_iff.mpr fun b hb =>
        candidateOf_sing_sing kn a b (h a (by simp)) (h b (by simp [hb])),
      ih fun t ht => h t (by simp [ht]), List.append_nil]

/-- One full `inferences` pass over the `k`-th knowledge base of the
diverging run produces exactly the two sentences of the next pass. -/
theorem inferences_knowledgeK (k : ℕ) (hk : 1 ≤ k) :
    infAux (knowledgeK k) (knowledgeK k) = newsAt (k + 1) := by
  have hm5A : sA 5 ∈ knowledgeK k := (sA_mem_knowledgeK k 5).mpr ⟨0, Nat.zero_le k, rfl⟩
  have hm5B : sB 5 ∈ knowledgeK k := (sB_mem_knowledgeK k 5).mpr ⟨0, Nat.zero_le k, rfl⟩
  have hm8A : sA 8 ∈ knowledgeK k := (sA_mem_knowledgeK k 8).mpr ⟨1, hk, by decide⟩
  have hm8B : sB 8 ∈ knowledgeK k := (sB_mem_knowledgeK k 8).mpr ⟨1, hk, by decide⟩
  have hexp : infAux (knowledgeK k) (knowledgeK k) =
      infAux (knowledgeK k) (sA 5 :: bigS 10 :: sB 5 :: bigS 13 :: tailK k) := rfl
  rw [hexp]
  simp only [infAux]
  have hb1 : List.filterMap (candidateOf (knowledgeK k) (sA 5))
      (bigS 10 :: sB 5 :: bigS 13 :: tailK k) = [] := by
    rw [List.filterMap_cons_none (by
        rw [candidateOf_sA_bigS, show (10 : ℤ) - 5 = 5 by norm_num, if_pos hm5B]),
      List.filterMap_cons_none (candidateOf_sing_sing _ _ _ ⟨5, Or.inl rfl⟩ ⟨5, Or.inr rfl⟩),
      List.filterMap_cons_none (by
        rw [candidateOf_sA_bigS, show (13 : ℤ) - 5 = 8 by norm_num, if_pos hm8B])]
    exact List.filterMap_eq_nil_iff.mpr fun b hb =>
      candidateOf_sing_sing _ _ _ ⟨5, Or.inl rfl⟩ (tailK_sing k b hb)
  have hb2 : List.filterMap (candidateOf (knowledgeK k) (bigS 10))
      (sB 5 :: bigS 13 :: tailK k) =
      if k % 2 = 1 then [sA (cseq (k + 1)), sB (cseq (k + 1))] else [] := by
    rw [List.filterMap_cons_none (by
        rw [candidateOf_bigS_sB, show (10 : ℤ) - 5 = 5 by norm_num, if_pos hm5A]),
      List.filterMap_cons_none (candidateOf_bigS_bigS _ 10 13),
      filterMap_big10_tail k hk k (le_refl k)]
    by_cases hp : k % 2 = 1
    · rw [if_pos ⟨rfl, hp⟩, if_pos hp]
    · rw [if_neg (by rintro ⟨_, h⟩; exact hp h), if_neg hp]
  have hb3 : List.filterMap (candidateOf (knowledgeK k) (sB 5))
      (bigS 13 :: tailK k) = [] := by
    rw [List.filterMap_cons_none (by
        rw [candidateOf_sB_bigS, show (13 : ℤ) - 5 = 8 by norm_num, if_pos hm8A])]
    exact List.filterMap_eq_nil_iff.mpr fun b hb =>
      candidateOf_sing_sing _ _ _ ⟨5, Or.inr rfl⟩ (tailK_sing k b hb)
  have hb4 : List.filterMap (candidateOf (knowledgeK k) (bigS 13)) (tailK k) =
      if k % 2 = 0 then [sB (cseq (k + 1)), sA (cseq (k + 1))] else [] := by
    rw [filterMap_big13_tail k hk k (le_refl k)]
    by_cases hp : k % 2 = 0
    · rw [if_pos ⟨rfl, hp⟩, if_pos hp]
    · rw [if_neg (by rintro ⟨_, h⟩; exact hp h), if_neg hp]
  have hb5 : infAux (knowledgeK k) (tailK k) = [] :=
    infAux_sing _ _ (tailK_sing k)
  rw [hb1, hb2, hb3, hb4, hb5]
  simp only [List.nil_append, List.append_nil]
  by_cases hp : k % 2 = 1
  · rw [if_pos hp, if_neg (by omega), newsAt, if_neg (by omega), List.append_nil]
  · rw [if_neg hp, if_pos (by omega), newsAt, if_pos (by omega), List.nil_append]

/-- A pass body over sentences that are all non-empty and unresolved is the
identity. -/
theorem msPassAux_id : ∀ (n idx : ℕ) (st : AI) (ch : Bool) (em : List Sentence),
    (∀ s ∈ st.knowledge, s.cells ≠ ∅ ∧ s.known_mines = ∅ ∧ s.known_safes = ∅) →
    msPassAux n idx st ch em = (st, ch, em) := by
  intro n
  induction n with
  | zero =>
    intro idx st ch em _
    rfl
  | succ n ih =>
    intro idx st ch em h
    rw [msPassAux]
    cases hg : st.knowledge[idx]? with
    | none => rfl
    | some s =>
      dsimp only
      obtain ⟨he, hm, hs⟩ := h s (List.getElem?_mem hg)
      rw [if_neg he, hm, hs, markMinesBatch_empty, markSafesBatch_empty]
      have hch : (ch || decide ((∅ : Finset Cell) ≠ ∅) || decide ((∅ : Finset Cell) ≠ ∅)) =
          ch := by
        simp
      rw [hch]
      exact ih (idx + 1) st ch em h

/-- `mines_safes` is the identity on a state whose sentences are all
non-empty and unresolved. -/
theorem mines_safes_id (st : AI)
    (h : ∀ s ∈ st.knowledge, s.cells ≠ ∅ ∧ s.known_mines = ∅ ∧ s.known_safes = ∅) :
    mines_safes st = st := by
  have hpass : msPass st = (st, false) := by
    simp only [msPass, msPassAux_id st.knowledge.length 0 st false [] h]
    rfl
  rw [mines_safes, msLoopFuel, hpass]
  rfl

/-- A singleton sentence whose count is neither `0` nor `1` is non-empty
and unresolved. -/
theorem sing_healthy (c : Cell) (x : ℤ) (h1 : x ≠ 1) (h0 : x ≠ 0) :
    (⟨{c}, x⟩ : Sentence).cells ≠ ∅ ∧ (⟨{c}, x⟩ : Sentence).known_mines = ∅ ∧
      (⟨{c}, x⟩ : Sentence).known_safes = ∅ := by
  refine ⟨by simp, ?_, ?_⟩
  · unfold Sentence.known_mines
    rw [if_neg]
    dsimp only
    rw [Finset.card_singleton]
    omega
  · unfold Sentence.known_safes
    rw [if_neg]
    exact h0

/-- Every sentence of the diverging run's knowledge base is non-empty and
unresolved: the two-cell sentences have counts 10 and 13, and every
singleton count is `≡ 2 (mod 3)`, hence neither 0 nor 1. -/
theorem knowledgeK_healthy (k : ℕ) : ∀ s ∈ knowledgeK k,
    s.cells ≠ ∅ ∧ s.known_mines = ∅ ∧ s.known_safes = ∅ := by
  intro s hs
  rcases knowledgeK_shape k s hs with rfl | rfl | ⟨m, _, rfl | rfl⟩
  · exact ⟨by decide, by decide, by decide⟩
  · exact ⟨by decide, by decide, by decide⟩
  · have h3 := cseq_mod3 m
    exact sing_healthy cA (cseq m) (by omega) (by omega)
  · have h3 := cseq_mod3 m
    exact sing_healthy cB (cseq m) (by omega) (by omega)

theorem stateK_succ_knowledge (k : ℕ) :
    knowledgeK k ++ newsAt (k + 1) = knowledgeK (k + 1) := by
  unfold knowledgeK
  rw [List.append_assoc]
  rfl

theorem newsAt_ne_nil (m : ℕ) : newsAt m ≠ [] := by
  unfold newsAt
  split_ifs <;> simp

theorem stateK_cards (k : ℕ) : (stateK k).moves_made.card = (stateK k).safes.card := rfl

/-- The heart of the C5 counterexample: from `stateK k` (any `k ≥ 1`) the
derivation loop of `add_knowledge` never exits, for any amount of fuel. -/
theorem akLoop_stateK : ∀ (fuel k : ℕ), 1 ≤ k → akLoop fuel (stateK k) = none := by
  intro fuel
  induction fuel with
  | zero =>
    intro k _
    rfl
  | succ fuel ih =>
    intro k hk
    simp only [akLoop]
    rw [if_pos (stateK_cards k)]
    have hinf : inferences (stateK k) = newsAt (k + 1) := inferences_knowledgeK k hk
    rw [hinf, if_neg (newsAt_ne_nil (k + 1))]
    have hst : mines_safes { stateK k with
        knowledge := (stateK k).knowledge ++ newsAt (k + 1) } = stateK (k + 1) := by
      have h1 : ({ stateK k with knowledge := (stateK k).knowledge ++ newsAt (k + 1) } : AI) =
          stateK (k + 1) := by
        show ({ stateK k with knowledge := knowledgeK k ++ newsAt (k + 1) } : AI) =
          stateK (k + 1)
        rw [stateK_succ_knowledge]
        rfl
      rw [h1]
      exact mines_safes_id (stateK (k + 1)) (knowledgeK_healthy (k + 1))
    rw [hst]
    exact ih (k + 1) (by omega)

/-- C5 counterexample: the reachable call `add_knowledge((0,2), 13)` from
the state produced by `add_knowledge((0,0), 5)` and `add_knowledge((0,2), 10)`
on a fresh 1×4 engine never terminates: its derive-then-propagate `while`
loop produces two new sentences on every pass, forever. -/
theorem derivation_loop_divergence :
    c5prep = some c5base ∧ ¬ akTerminates c5base (0, 2) 13 := by
  constructor
  · have hA : add_knowledge 4 (AI.init 1 4) (0, 0) 5 =
        some (⟨1, 4, {(0, 0)}, {(0, 0)}, ∅, [sA 5]⟩ : AI) := rfl
    have hB : add_knowledge 4 (⟨1, 4, {(0, 0)}, {(0, 0)}, ∅, [sA 5]⟩ : AI) (0, 2) 10 =
        some c5base := rfl
    show (add_knowledge 4 (AI.init 1 4) (0, 0) 5).bind
        (fun s => add_knowledge 4 s (0, 2) 10) = some c5base
    rw [hA]
    exact hB
  · rintro ⟨fuel, hfuel⟩
    have heq : add_knowledge fuel c5base (0, 2) 13 = akLoop fuel (stateK 0) := by
      have h1 : add_knowledge fuel c5base (0, 2) 13 = akLoop fuel (mines_safes (⟨1, 4,
          {(0, 2), (0, 0)}, {(0, 2), (0, 0)}, ∅, [sA 5, bigS 10, sB 5, bigS 13]⟩ : AI)) := rfl
      have h2 : mines_safes (⟨1, 4, {(0, 2), (0, 0)}, {(0, 2), (0, 0)}, ∅,
          [sA 5, bigS 10, sB 5, bigS 13]⟩ : AI) = stateK 0 := rfl
      rw [h1, h2]
    rw [heq] at hfuel
    have hz : akLoop fuel (stateK 0) = none := by
      cases fuel with
      | zero => rfl
      | succ fuel =>
        simp only [akLoop]
        rw [if_pos (stateK_cards 0)]
        have hinf : inferences (stateK 0) = newsAt 1 := rfl
        rw [hinf, if_neg (newsAt_ne_nil 1)]
        have hst : mines_safes { stateK 0 with
            knowledge := (stateK 0).knowledge ++ newsAt 1 } = stateK 1 := rfl
        rw [hst]
        exact akLoop_stateK fuel 1 (le_refl 1)
    rw [hz] at hfuel
    exact absurd hfuel (by simp)

end Minesweeper
